import Mathlib

/-!
Verification of the `db-xml-maven` repository's `maven.py` against its
natural-language specification.

The development shallowly embeds the parts of `maven.py` that the claims
C1..C10 are about:

* the `Model.__init__` builder phases (profile injection, parent
  inheritance, interpolation, dependency-management import and injection),
* the merge helpers `Model._merge_deps` / `Model._merge_props` / `Model._merge`,
* profile activation `Model._is_active_profile`,
* the property-expression evaluator `Model._evaluate` / `Model._propvalue`,
* metadata aggregation (`Metadatas`),
* artifact resolution (`Artifact.resolve`) and the coordinate classes
  (`Project`, `Component`, `Artifact`) with their `__eq__` / `__hash__`.

Python dictionaries are embedded as insertion-ordered association lists,
Python strings as `String` (or `List Char` where character-level reasoning
is needed), exceptions as `Except`, and unbounded loops take a fuel
parameter (fuel exhaustion is a distinguished error that never occurs for
sufficiently large fuel; theorems condition on a non-fuel outcome or use
concrete fuel).
-/

/-! ## Coordinate algebra: `Project`, `Component`, `Artifact` (`maven.py` lines 270-435)

Each Python object carries a back-reference to its `Environment`; for the
equality/hash claims the only thing that matters about the environment is
its identity, so it is embedded as an opaque numeric handle. -/

/-- Embedding of `Project`: `env` handle plus the `groupId`/`artifactId` fields. -/
structure ProjectR where
  env : Nat
  groupId : String
  artifactId : String
deriving DecidableEq

/-- Embedding of `Component`: a `Project` at a `version`. -/
structure ComponentR where
  project : ProjectR
  version : String
deriving DecidableEq

/-- Embedding of `Artifact`: a `Component` plus `classifier` and `packaging`. -/
structure ArtifactR where
  component : ComponentR
  classifier : String
  packaging : String
deriving DecidableEq

/-- Embeds `Project.__eq__`: compares `groupId` and `artifactId` only. -/
def projectEq (a b : ProjectR) : Bool :=
  a.groupId == b.groupId && a.artifactId == b.artifactId

/-- Embeds `Project.__hash__`: `hash((self.groupId, self.artifactId))`. -/
def projectHash (p : ProjectR) : UInt64 :=
  hash (p.groupId, p.artifactId)

/-- Embeds `Component.__eq__`: compares the project (via `Project.__eq__`) and the version. -/
def componentEq (a b : ComponentR) : Bool :=
  projectEq a.project b.project && a.version == b.version

/-- Embeds `Component.__hash__`: `hash((self.project, self.version))`; the tuple hash
combines the element hashes, and the `Project` element hashes via `Project.__hash__`. -/
def componentHash (c : ComponentR) : UInt64 :=
  hash (projectHash c.project, c.version)

/-- Embeds `Artifact.__eq__`: compares component, classifier, and packaging. -/
def artifactEq (a b : ArtifactR) : Bool :=
  componentEq a.component b.component && a.classifier == b.classifier
    && a.packaging == b.packaging

/-- Embeds `Artifact.__hash__`: `hash((self.component, self.classifier, self.packaging))`. -/
def artifactHash (a : ArtifactR) : UInt64 :=
  hash (componentHash a.component, a.classifier, a.packaging)

/-! ## Local store and resolution (`Artifact.resolve`, `maven.py` lines 479-500) -/

/-- A filesystem path, as a list of segments. -/
abbrev PathR := List String

/-- The slice of `Environment` that `Artifact.resolve` reads: the writable
cache root and the ordered read-only local repository roots. -/
structure EnvR where
  repo_cache : Option PathR
  local_repos : List PathR

/-- Embeds `str.split(".")` at character level: accumulate a segment, emit it at
each `.`, emit the trailing segment at the end (so `""` splits to `[""]`
and `"a..b"` to `["a", "", "b"]`, as in Python). -/
def dotSplitChars (acc : List Char) : List Char → List (List Char)
  | [] => [acc.reverse]
  | c :: rest =>
    if c = '.' then acc.reverse :: dotSplitChars [] rest
    else dotSplitChars (c :: acc) rest

/-- Embeds `self.groupId.split(".")`. -/
def dotSplit (s : String) : List String :=
  (dotSplitChars [] s.toList).map List.asString

/-- Embeds `Project.path_prefix / Component.path_prefix`: `groupId` split on `.`,
then `artifactId`, then `version`. -/
def path_prefix (a : ArtifactR) : PathR :=
  dotSplit a.component.project.groupId ++
    [a.component.project.artifactId, a.component.version]

/-- Embeds `Artifact.filename`: `artifactId-version[-classifier].packaging`; the
classifier suffix is added only when the classifier string is truthy (non-empty). -/
def filenameR (a : ArtifactR) : String :=
  a.component.project.artifactId ++ "-" ++ a.component.version ++
    (if a.classifier == "" then "" else "-" ++ a.classifier) ++ "." ++ a.packaging

/-- Embeds `Artifact.cached_path`: the would-be path in the writable cache, or `None`
when no cache root is configured. -/
def cached_path (env : EnvR) (a : ArtifactR) : Option PathR :=
  env.repo_cache.map (fun rc => rc ++ path_prefix a ++ [filenameR a])

/-- A local filesystem snapshot: the set of existing files. `Path.exists()`
is membership. -/
def pathExists (fs : List PathR) (p : PathR) : Bool := fs.contains p

/-- The candidate path for an artifact under one read-only repository root. -/
def localCandidate (a : ArtifactR) (base : PathR) : PathR :=
  base ++ path_prefix a ++ [filenameR a]

/-- Outcome of `Artifact.resolve`: which source served the artifact.
`download` denotes delegating to `self.env.resolver.download(self)`. -/
inductive ResolveOutcome where
  | cachedHit (p : PathR)
  | localHit (p : PathR)
  | download
deriving DecidableEq

/-- The `for base in self.env.local_repos:` loop of `Artifact.resolve`:
return the first existing candidate, else fall through to the downloader. -/
def resolveLocalsGo (fs : List PathR) (a : ArtifactR) : List PathR → ResolveOutcome
  | [] => .download
  | base :: rest =>
    if pathExists fs (localCandidate a base) then .localHit (localCandidate a base)
    else resolveLocalsGo fs a rest

/-- Embeds `Artifact.resolve`: check the writable cache (`if cached_file and
cached_file.exists()`), then each read-only repository in order, then download. -/
def resolveR (fs : List PathR) (env : EnvR) (a : ArtifactR) : ResolveOutcome :=
  match cached_path env a with
  | some cf =>
    if pathExists fs cf then .cachedHit cf else resolveLocalsGo fs a env.local_repos
  | none => resolveLocalsGo fs a env.local_repos

/-! ## Model state and merge helpers (`maven.py` lines 828-942) -/

/-- The four-tuple dependency key `(groupId, artifactId, classifier, type)`. -/
abbrev GACT := String × String × String × String

/-- Embedding of `Dependency` as the record of fields that the model builder
reads and writes (`version` is `Optional`: a missing `<version>` is `None`). -/
structure DepM where
  groupId : String
  artifactId : String
  version : Option String
  classifier : String
  type : String
  scope : String
  optional : Bool
  exclusions : List (String × String)
deriving DecidableEq

/-- The key used by `Model._merge_deps`:
`(dep.groupId, dep.artifactId, dep.classifier, dep.type)`. -/
def depKey (d : DepM) : GACT := (d.groupId, d.artifactId, d.classifier, d.type)

/-- A Python dict embedded as an insertion-ordered association list. -/
abbrev DepMap := List (GACT × DepM)

/-- Embedding of the mutable `Model` state: `deps`, `dep_mgmt`, `props`. -/
structure MState where
  deps : DepMap
  dep_mgmt : DepMap
  props : List (String × String)
deriving DecidableEq

/-- One step of `Model._merge_deps`: `if k not in target: target[k] = dep`
(a dict insert appends at the end in insertion order). -/
def mergeDepOne (target : DepMap) (dep : DepM) : DepMap :=
  if target.any (fun kv => kv.1 == depKey dep) then target else target ++ [(depKey dep, dep)]

/-- Embeds `Model._merge_deps`: fold the source dependencies into the target map
with first-wins semantics. -/
def merge_deps (target : DepMap) (source : List DepM) : DepMap :=
  source.foldl mergeDepOne target

/-- Embeds `Model._merge_props`: `if k not in self.props: self.props[k] = v`. -/
def merge_props (target : List (String × String)) (source : List (String × String)) :
    List (String × String) :=
  source.foldl
    (fun tgt kv => if tgt.any (fun kv2 => kv2.1 == kv.1) then tgt else tgt ++ [kv]) target

/-- The slice of a parsed POM that `Model._merge` reads: direct dependencies,
managed dependencies, properties; plus the declared `(g, a, v)` parent
coordinate (present in the XML, read by `POM.parent()`). -/
structure POMData where
  dependencies : List DepM
  managed : List DepM
  properties : List (String × String)
  parentGAV : Option (String × String × String)
deriving DecidableEq

/-- Embeds `Model._merge`: merge a POM's dependencies, managed dependencies, and
properties into the model, first-wins. -/
def mergePOM (st : MState) (pom : POMData) : MState :=
  { deps := merge_deps st.deps pom.dependencies
    dep_mgmt := merge_deps st.dep_mgmt pom.managed
    props := merge_props st.props pom.properties }

/-- Errors surfaced by the embedded builder code. `parentCycle` is the
build failure kind that the specification's Phase C claims for revisited
`(g, a, v)` triples; it is part of the observation language (the code
never actually produces it). `fuelOut` is the artificial out-of-fuel
marker of the embedding. -/
inductive BuildErr where
  | valueError (msg : String)
  | attributeError (msg : String)
  | assertionError
  | typeError (msg : String)
  | parentCycle (g a v : String)
  | fuelOut
deriving DecidableEq

/-! ## Phase C: parent inheritance walk (`maven.py` lines 874-880)

The source reads:

    parent = pom.parent
    while parent:
        self._merge(parent)
        parent = parent.parent

`POM.parent` is a plain method (it has no `@property` decorator, unlike
`POM.groupId` etc.), so `pom.parent` evaluates to the *bound method
object*, not to a `POM`. A bound method is always truthy, so the loop is
entered, and `self._merge(parent)` immediately evaluates
`parent.dependencies()` on the method object, raising `AttributeError`.
The embedding models the Python attribute semantics with a small object
universe so that the error arises from the modelled steps. -/

/-- A Python value that can flow through the `parent` variable: a POM
object or a bound-method object. -/
inductive PyObj where
  | pomObj (p : POMData)
  | boundMethod (name : String)
deriving DecidableEq

/-- Python truthiness of those values: POM instances and bound methods are
both truthy (neither defines `__bool__`/`__len__`). The loop guard
`while parent:` would only stop on `None`, which is modelled by the loop
never being handed one (the attribute `pom.parent` is never `None`). -/
def pyTruthy : PyObj → Bool := fun _ => true

/-- Attribute access `pom.parent` *without calling it*: yields the bound
method object whatever the POM's declared parent coordinate is. -/
def parentAttribute (_p : POMData) : PyObj := .boundMethod "parent"

/-- Embeds `self._merge(parent)` applied to a Python value: on a real POM it
merges; on a bound-method object the body's first expression
`pom.dependencies()` raises `AttributeError`. -/
def mergeObj (st : MState) (o : PyObj) : Except BuildErr MState :=
  match o with
  | .pomObj q => .ok (mergePOM st q)
  | .boundMethod _ =>
    .error (.attributeError "method object has no attribute dependencies")

/-- Embeds `parent = parent.parent` applied to a Python value: attribute access on
a POM yields the bound method again; on a bound method it raises. -/
def parentOfObj (o : PyObj) : Except BuildErr PyObj :=
  match o with
  | .pomObj q => .ok (parentAttribute q)
  | .boundMethod _ => .error (.attributeError "method object has no attribute parent")

/-- The `while parent:` loop body, with fuel for the unbounded loop. -/
def parentLoop : Nat → MState → PyObj → Except BuildErr MState
  | 0, _, _ => .error .fuelOut
  | fuel + 1, st, par =>
    if pyTruthy par then
      match mergeObj st par with
      | .error e => .error e
      | .ok st2 =>
        match parentOfObj par with
        | .error e => .error e
        | .ok next => parentLoop fuel st2 next
    else .ok st

/-- Phase C as written in the source: seed the loop with the *uncalled*
attribute `pom.parent`. -/
def phaseC (fuel : Nat) (st : MState) (pom : POMData) : Except BuildErr MState :=
  parentLoop fuel st (parentAttribute pom)

/-- True when a build outcome is the parent-cycle failure the spec describes. -/
def isParentCycleErr (r : Except BuildErr MState) : Bool :=
  match r with
  | .error (.parentCycle _ _ _) => true
  | _ => false

/-! ## Phase F: dependency-management import (`maven.py` lines 893-912)

The source reads:

    for k, dep in self.dep_mgmt:
        if dep.scope != "import" and dep.type == "pom": continue
        ...load and merge the BOM...

`self.dep_mgmt` is a `Dict[GACT, Dependency]`; iterating a dict yields its
*keys*, each a 4-tuple `(g, a, classifier, type)`. Unpacking a 4-tuple
into the two targets `k, dep` raises
`ValueError: too many values to unpack (expected 2)` on the first
iteration, so the loop body never runs; with an empty `dep_mgmt` the loop
body is never entered and nothing happens. -/

/-- Phase F as written: crashes on any non-empty `dep_mgmt`, no-op otherwise. -/
def phaseF (st : MState) : Except BuildErr MState :=
  match st.dep_mgmt with
  | [] => .ok st
  | _ :: _ => .error (.valueError "too many values to unpack (expected 2)")

/-- The skip condition inside the (unreachable) Phase F loop body:
`dep.scope != "import" and dep.type == "pom"`. An entry is *imported*
exactly when this is `false`. -/
def phaseFSkips (dep : DepM) : Bool :=
  dep.scope != "import" && dep.type == "pom"

/-! ## Phase G: managed-version injection (`maven.py` lines 914-923)

The source reads:

    for gacp, dep in self.deps:
        if dep.version is not None: continue
        version = self.dep_mgmt.get(gacp, None)
        if version is None:
            raise ValueError("No version available for dependency {dep}")
        dep.set_version(version)

Iterating `self.deps` (a `Dict[GACT, Dependency]`) yields 4-tuple keys;
unpacking into `gacp, dep` raises `ValueError` on the first iteration, so
the phase crashes whenever `deps` is non-empty. (Were the loop reachable,
`self.dep_mgmt.get(gacp, None)` is the managed `Dependency` object, not a
version string, and the message is not an f-string: it would cite the
literal text `{dep}`.) -/

/-- Phase G as written: crashes on any non-empty `deps`, no-op otherwise. -/
def phaseG (st : MState) : Except BuildErr MState :=
  match st.deps with
  | [] => .ok st
  | _ :: _ => .error (.valueError "too many values to unpack (expected 2)")

/-- Dict lookup `self.dep_mgmt.get(gacp, None)` on the association list. -/
def lookupDep (m : DepMap) (k : GACT) : Option DepM :=
  match m with
  | [] => none
  | (k2, d) :: rest => if k2 == k then some d else lookupDep rest k

/-! ## Profile activation (`Model._is_active_profile`, `maven.py` lines 944-980) -/

/-- A child element of `<activation>`: its tag and text. -/
structure ProfileCondition where
  tag : String
  text : Option String
deriving DecidableEq

/-- The `for condition in activation:` scan: returns `True` at the first
`<activeByDefault>` child whose text is `"true"`; the `jdk`, `os`,
`property`, and `file` branches (and unknown tags) do nothing; falls off
the loop returning `False`. -/
def activationScan : List ProfileCondition → Bool
  | [] => false
  | c :: rest =>
    if c.tag == "activeByDefault" && c.text == some "true" then true
    else activationScan rest

/-- Embeds `Model._is_active_profile`: `None` activation (no `<activation>`
element) is inactive; otherwise scan the children. -/
def is_active_profile (activation : Option (List ProfileCondition)) : Bool :=
  match activation with
  | none => false
  | some conds => activationScan conds

/-! ## Metadata aggregation (`Metadatas`, `maven.py` lines 784-822)

A per-project metadata document is embedded as the record of accessor
values the `Metadata` interface exposes; `lastUpdated` timestamps are
totally ordered scalars (`ts2dt` parses them into `datetime`s), embedded
as `Nat`. -/

/-- Embedding of one `Metadata` document (the abstract accessor record). -/
structure MetaDoc where
  groupId : Option String
  artifactId : Option String
  lastUpdated : Option Nat
  latest : Option String
  versions : List String
  release : Option String
deriving DecidableEq

/-- The sort key `lambda m: m.lastUpdated`. Python's `sorted` raises
`TypeError` when it compares an absent (`None`) timestamp with another;
the claims below hypothesize that every aggregated document carries a
timestamp, so the `getD 0` default is never observable there. -/
def luKey (d : MetaDoc) : Nat := d.lastUpdated.getD 0

/-- Stable ascending insertion (a new element goes after existing elements
with keys less than or equal to its own, as Python's stable sort does). -/
def insertDoc (d : MetaDoc) : List MetaDoc → List MetaDoc
  | [] => [d]
  | e :: rest => if luKey e ≤ luKey d then e :: insertDoc d rest else d :: e :: rest

/-- Embeds `sorted(metadatas, key=lambda m: m.lastUpdated)`: a stable ascending
sort, here as insertion sort. -/
def sortDocs (docs : List MetaDoc) : List MetaDoc :=
  docs.foldl (fun acc d => insertDoc d acc) []

/-- Python truthiness of an optional string (`if m.latest`): absent and
empty are falsy. -/
def pyTruthyStr (o : Option String) : Bool :=
  match o with
  | none => false
  | some s => !(s == "")

/-- The `for a, b in combinations(self.metadatas, 2): assert ...` check:
every ordered pair agrees on `groupId` and `artifactId`. -/
def pairwiseGA : List MetaDoc → Bool
  | [] => true
  | d :: rest =>
    rest.all (fun e => d.groupId == e.groupId && d.artifactId == e.artifactId)
      && pairwiseGA rest

/-- The aggregate: `self.metadatas`, already sorted by construction. -/
structure MetadatasR where
  metadatas : List MetaDoc
deriving DecidableEq

/-- Embeds `Metadatas.__init__`: sort by `lastUpdated`, then assert pairwise
identical `(groupId, artifactId)`. -/
def mkMetadatas (docs : List MetaDoc) : Except BuildErr MetadatasR :=
  let sorted := sortDocs docs
  if pairwiseGA sorted then .ok ⟨sorted⟩ else .error .assertionError

/-- Embeds `Metadatas.versions`: `[v for m in self.metadatas for v in m.versions]`. -/
def MetadatasR.versionsAgg (m : MetadatasR) : List String :=
  (m.metadatas.map MetaDoc.versions).flatten

/-- The generator scan `next((f m for m in reversed(...) if f m), None)`. -/
def firstTruthy : List (Option String) → Option String
  | [] => none
  | o :: rest => if pyTruthyStr o then o else firstTruthy rest

/-- Embeds `Metadatas.latest`: newest-first scan for a truthy `latest`. -/
def MetadatasR.latestAgg (m : MetadatasR) : Option String :=
  firstTruthy (m.metadatas.reverse.map MetaDoc.latest)

/-- Embeds `Metadatas.release`: newest-first scan for a truthy `release`. -/
def MetadatasR.releaseAgg (m : MetadatasR) : Option String :=
  firstTruthy (m.metadatas.reverse.map MetaDoc.release)

/-- Embeds `Metadatas.lastUpdated`: `self.metadatas[-1].lastUpdated` (indexing an
empty list raises `IndexError`; modelled as `none`, unobservable under the
claims' non-empty hypotheses). -/
def MetadatasR.lastUpdatedAgg (m : MetadatasR) : Option Nat :=
  m.metadatas.getLast?.bind MetaDoc.lastUpdated

/-- Following the spec's words ("the most recent non-absent value scanning
newest-first"): the first *present* value of the scan, for comparison with
the code's truthiness-based scan. -/
def firstNonAbsent (l : List (Option String)) : Option String :=
  l.findSome? id

/-! ## Property interpolation (`Model._evaluate` / `Model._propvalue`,
`maven.py` lines 982-1016)

Character-level behavior matters here (which `${...}` forms the regex
`\$\{([^}]*)\}` finds, and what `str.replace` does), so expressions are
embedded as `List Char`. -/

/-- A Python string at character level. -/
abbrev Str := List Char

/-- Shorthand for building `Str` literals. -/
def str (s : String) : Str := s.toList

/-- The literal text of a property reference: `"${" + name + "}"`. -/
def lit (name : Str) : Str := '$' :: '{' :: (name ++ ['}'])

/-- The two-character substring `${` whose presence inside a *name* makes
reference literals overlap. -/
def dollarBrace : Str := ['$', '{']

/-- Split at the first `}`: `some (before, after)` or `none` when there is
no `}`. Mirrors how `[^}]*}` consumes up to and including the first `}`. -/
def takeUntilRBrace : Str → Option (Str × Str)
  | [] => none
  | c :: rest =>
    if c = '}' then some ([], rest)
    else match takeUntilRBrace rest with
      | none => none
      | some (pre, post) => some (c :: pre, post)

/-- Embedding of `findall("\\${([^}]*)}", expression)`: the leftmost
non-overlapping matches. A match needs `$` followed by `{`, then the
shortest run of non-`}` characters terminated by `}`; scanning resumes
after the consumed `}`. When a `${` has no later `}`, no match can start
at it — and since a match anywhere needs a `}`, none exists later either,
so the scan stops. -/
def findRefs : Str → List Str
  | '$' :: '{' :: rest =>
    match h : takeUntilRBrace rest with
    | some (name, rest2) => name :: findRefs rest2
    | none => []
  | _ :: rest => findRefs rest
  | [] => []
termination_by s => s.length
decreasing_by
  · have hlen : ∀ s pre post, takeUntilRBrace s = some (pre, post) →
        post.length < s.length := by
      intro s
      induction s with
      | nil => intro pre post h; simp [takeUntilRBrace] at h
      | cons c rest ih =>
        intro pre post h
        by_cases hc : c = '}'
        · simp [takeUntilRBrace, hc] at h
          simp [← h.2]
        · simp only [takeUntilRBrace, if_neg hc] at h
          cases hr : takeUntilRBrace rest with
          | none => rw [hr] at h; exact absurd h (by simp)
          | some pr =>
            rw [hr] at h
            simp only [Option.some.injEq, Prod.mk.injEq] at h
            obtain ⟨-, h2⟩ := h
            subst h2
            have := ih pr.1 pr.2 (by rw [hr])
            simp only [List.length_cons]
            omega
    simp only [List.length_cons]
    have := hlen _ _ _ h
    omega
  · simp only [List.length_cons]; omega

/-- Embeds `set(...)` over the found references, iterated in first-occurrence
order. (CPython's set iteration order is implementation-defined; every
concrete result proved below is insensitive to the order choice.) -/
def eraseDups : List Str → List Str
  | [] => []
  | x :: xs => x :: eraseDups (xs.filter (fun y => y ≠ x))
termination_by l => l.length
decreasing_by
  simp only [List.length_cons]
  have := List.length_filter_le (fun y => y ≠ x) xs
  omega

/-- Boolean "p is a prefix of s" on character lists. -/
def strHasPre : Str → Str → Bool
  | [], _ => true
  | _ :: _, [] => false
  | c :: p, d :: s => c == d && strHasPre p s

/-- Boolean substring containment (used to state the preservation claims). -/
def containsSub (s q : Str) : Bool :=
  if strHasPre q s then true
  else match s with
    | [] => false
    | _ :: s2 => containsSub s2 q

/-- Embedding of `str.replace(p, t)`: replace the leftmost occurrence of
`p`, skip past the replacement, continue; non-overlapping, left to right.
(The `p = []` guard is never exercised: the evaluator's patterns are
`${name}` literals.) -/
def replaceAll : Str → Str → Str → Str
  | s, [], _ => s
  | [], _ :: _, _ => []
  | c :: s2, p1 :: p2, t =>
    if strHasPre (p1 :: p2) (c :: s2) then
      t ++ replaceAll ((c :: s2).drop (p1 :: p2).length) (p1 :: p2) t
    else c :: replaceAll s2 (p1 :: p2) t
termination_by s _ _ => s.length
decreasing_by
  · simp only [List.length_cons, List.length_drop]; omega
  · simp only [List.length_cons]; omega

/-- The property table `Dict[str, str]` as an association list. -/
abbrev PropsL := List (Str × Str)

/-- Embeds `props.get(propname, None)`. -/
def lookupProp : PropsL → Str → Option Str
  | [], _ => none
  | (k, v) :: rest, n => if k = n then some v else lookupProp rest n

/-- Embeds `props[propname] = evaluated`: update the first binding in place, or
append a new one (dict insertion order). -/
def setProp : PropsL → Str → Str → PropsL
  | [], k, v => [(k, v)]
  | (k2, v2) :: rest, k, v =>
    if k2 = k then (k2, v) :: rest else (k2, v2) :: setProp rest k v

/-- Errors of the evaluator: the interpolation-cycle `ValueError` (the
message of the source is not an f-string, so it cites the literal text
`{propname}`; the embedded error carries the name for the theorems), and
the embedding's artificial out-of-fuel marker. -/
inductive EvalErr where
  | cycle (propname : Str)
  | fuelOut
deriving DecidableEq

mutual

/-- Embeds `Model._propvalue(propname, props, visited)`. The caller passes the
actual visited set (`[]` embeds the `visited is None → set()` entry case).
Raises the cycle error when `propname` was already visited; returns `None`
(leaving `props` untouched) when the property is absent; otherwise
evaluates the property's value with the shared visited set and memoizes
the result into `props`. -/
def propvalueA : Nat → Str → PropsL → List Str → Except EvalErr (Option Str × PropsL × List Str)
  | 0, _, _, _ => .error .fuelOut
  | fuel + 1, propname, props, visited =>
    if propname ∈ visited then .error (.cycle propname)
    else
      let visited2 := propname :: visited
      match lookupProp props propname with
      | none => .ok (none, props, visited2)
      | some expression =>
        match evaluateA fuel expression props (some visited2) with
        | .error e => .error e
        | .ok (evaluated, props2, vis2) =>
          .ok (some evaluated, setProp props2 propname evaluated, vis2.getD visited2)

/-- Embeds `Model._evaluate(expression, props, visited)`. Collects the referenced
names (deduplicated), returns the expression unchanged when there are
none, otherwise processes each reference in turn. The `visited` argument
is `none` at top level (each reference then gets a fresh set) or the
caller's shared set. -/
def evaluateA : Nat → Str → PropsL → Option (List Str) → Except EvalErr (Str × PropsL × Option (List Str))
  | 0, _, _, _ => .error .fuelOut
  | fuel + 1, expression, props, visited =>
    let refs := eraseDups (findRefs expression)
    match refs with
    | [] => .ok (expression, props, visited)
    | _ :: _ => processRefs fuel refs expression props visited

/-- The `for prop_reference in props_referenced:` loop: look the reference
up (a fresh visited set per reference when the loop's `visited` is `None`,
the shared, growing set otherwise); leave the `${...}` text alone when the
property is absent, else replace every occurrence of its literal. -/
def processRefs : Nat → List Str → Str → PropsL → Option (List Str) → Except EvalErr (Str × PropsL × Option (List Str))
  | 0, _, _, _, _ => .error .fuelOut
  | _ + 1, [], value, props, visited => .ok (value, props, visited)
  | fuel + 1, r :: rest, value, props, visited =>
    match propvalueA fuel r props (visited.getD []) with
    | .error e => .error e
    | .ok (replacement, props2, vis2) =>
      let visited2 := visited.map (fun _ => vis2)
      let value2 := match replacement with
        | none => value
        | some t => replaceAll value (lit r) t
      processRefs fuel rest value2 props2 visited2

end

/-! ## Auxiliary predicates and concrete scenario inputs for the claims -/

/-- A reference name is "clean" when it does not itself contain the
two-character substring `${`; reference literals of clean names cannot
overlap each other (see the preservation lemmas below). -/
def cleanName (name : Str) : Bool := !containsSub name dollarBrace

/-- The names a property's value directly references. -/
def directRefs (props : PropsL) (n : Str) : List Str :=
  match lookupProp props n with
  | none => []
  | some v => eraseDups (findRefs v)

/-- Reachability: `b` is reachable from `a` in one to `fuel` steps of the
property-reference graph. -/
def reachesIn (props : PropsL) : Nat → Str → Str → Bool
  | 0, _, _ => false
  | fuel + 1, a, b =>
    (directRefs props a).any (fun m => m = b || reachesIn props fuel m b)

/-- The property-reference graph has a cycle: some key reaches itself. -/
def hasRefCycle (props : PropsL) : Bool :=
  (props.map Prod.fst).any (fun k => reachesIn props props.length k k)

/-- An empty model state (the builder's state before any merge). -/
def emptyMState : MState := ⟨[], [], []⟩

/-- A direct dependency `foo:bar` with no version (to be managed). -/
def c1dep : DepM :=
  ⟨"foo", "bar", none, "", "jar", "compile", false, []⟩

/-- The managed counterpart `foo:bar:1.2.3` under the same four-tuple key. -/
def c1mgmt : DepM :=
  ⟨"foo", "bar", some "1.2.3", "", "jar", "compile", false, []⟩

/-- The model state Phase G receives in the claim's scenario: one direct
dependency with null version, and a management entry for the same key. -/
def c1state : MState :=
  ⟨[(depKey c1dep, c1dep)], [(depKey c1mgmt, c1mgmt)], []⟩

/-- A `dependencyManagement` entry of type `pom` and scope `import` — the
exact shape Phase F is claimed to import. -/
def c2bom : DepM :=
  ⟨"org.bom", "platform", some "1.0", "", "pom", "import", false, []⟩

/-- A plain managed `jar`/`compile` entry — a shape the claim says is
never imported. -/
def c2jar : DepM :=
  ⟨"org.lib", "x", some "9.9", "", "jar", "compile", false, []⟩

/-- The model state Phase F receives in the claim's scenario. -/
def c2state : MState :=
  ⟨[], [(depKey c2bom, c2bom)], []⟩

/-- A descriptor with a declared parent and some content of its own. -/
def c3pom : POMData :=
  ⟨[c1dep], [], [("foo.version", "1.2.3")], some ("org.parent", "base", "7")⟩

/-- The model state after Phases A/B for that descriptor. -/
def c3state : MState :=
  ⟨[(depKey c1dep, c1dep)], [], [("foo.version", "1.2.3")]⟩

/-- Descriptor A of the cyclic chain A→B→A (A's parent is B; B's parent,
in the narrative repository, is A again). -/
def c4pomA : POMData :=
  ⟨[], [], [], some ("org.cycle", "B", "1")⟩

/-- Concrete property maps for the interpolation claims. -/
def diamondProps : PropsL :=
  [(str "x", str "$\x7ba\x7d$\x7bb\x7d"), (str "a", str "v"), (str "b", str "$\x7ba\x7d")]

/-- The spec's own cycle example: `x=${y}`, `y=${x}`. -/
def xyCycleProps : PropsL :=
  [(str "x", str "$\x7by\x7d"), (str "y", str "$\x7bx\x7d")]

/-- Property map for the C5 counterexample: only `a` is defined. -/
def c5props : PropsL := [(str "a", str "v")]

/-- The C5 counterexample expression: the literal of the undefined
reference `x${a` contains the literal of the defined reference `a`. -/
def c5expr : Str := str "$\x7bx$\x7ba\x7d\x7d $\x7ba\x7d"

/-- Property map and expression for the C5 witness. -/
def c5wprops : PropsL := [(str "d", str "1.4")]

/-- Witness expression: one undefined and one defined reference. -/
def c5wexpr : Str := str "$\x7bu\x7d $\x7bd\x7d"

/-- Embeds `p` is a prefix of `s` (propositional form used by the string lemmas). -/
def preP (p s : Str) : Prop := ∃ r, s = p ++ r

/-- No occurrence of `p` can overlap an occurrence of `q`:
`p` cannot match starting inside `q` (whatever follows `q`), and no proper
tail of `p` is prefix-comparable with `q`. -/
def overlapFreeP (p q : Str) : Prop :=
  (∀ k, k < q.length → ∀ w, ¬ preP p (q.drop k ++ w)) ∧
    (∀ m, 0 < m → m < p.length → ¬ preP (p.drop m) q ∧ ¬ preP q (p.drop m))

/-- Concrete metadata documents for the aggregation witness. -/
def c8doc1 : MetaDoc :=
  ⟨some "org.g", some "art", some 20230501120000, some "2.0", ["1.0", "2.0"], some "2.0"⟩

/-- An older sibling document (absent `latest`/`release`). -/
def c8doc2 : MetaDoc :=
  ⟨some "org.g", some "art", some 20220101000000, none, ["0.9"], none⟩

/-- The aggregated collection (newest listed first, to exercise sorting). -/
def c8docs : List MetaDoc := [c8doc1, c8doc2]

/-- The aggregate the constructor produces for `c8docs`. -/
def c8agg : MetadatasR := ⟨[c8doc2, c8doc1]⟩

/-- Concrete resolution scenario: no cache, two read-only roots, the
artifact present only under the second root. -/
def env9 : EnvR := ⟨none, [["repo0"], ["repo1"]]⟩

/-- The artifact being resolved in the scenario. -/
def art9 : ArtifactR := ⟨⟨⟨0, "org.g", "a"⟩, "1"⟩, "", "jar"⟩

/-- The filesystem snapshot for the scenario. -/
def fs9 : List PathR := [["repo1", "org", "g", "a", "1", "a-1.jar"]]

/-! ## Theorems -/

/-- Decomposition: a successful `takeUntilRBrace` split means the input
was `before ++ '}' :: after` with no `}` in `before`. -/
theorem takeUntilRBrace_eq {s pre post : Str}
    (h : takeUntilRBrace s = some (pre, post)) :
    s = pre ++ '}' :: post ∧ '}' ∉ pre := by
  induction s generalizing pre post with
  | nil => simp [takeUntilRBrace] at h
  | cons c rest ih =>
    by_cases hc : c = '}'
    · simp [takeUntilRBrace, hc] at h
      simp [hc, h.1, h.2]
    · simp only [takeUntilRBrace, if_neg hc] at h
      cases hr : takeUntilRBrace rest with
      | none => rw [hr] at h; exact absurd h (by simp)
      | some pr =>
        rw [hr] at h
        simp only [Option.some.injEq, Prod.mk.injEq] at h
        obtain ⟨h1, h2⟩ := h
        obtain ⟨hd, hnot⟩ := ih ((by rw [hr]) : takeUntilRBrace rest = some (pr.1, pr.2))
        subst h2
        rw [← h1]
        constructor
        · simp [hd]
        · simp only [List.mem_cons]
          rintro (rfl | hmem)
          · exact hc rfl
          · exact hnot hmem

/-- C10: coordinate equality and hashing ignore the `Environment` handle:
two `Project`s, `Component`s or `Artifact`s built over different
environments but with equal coordinate fields compare equal (via the
embedded `__eq__`) and hash equal (via the embedded `__hash__`). -/
theorem c10_eq_hash_ignore_env :
    ∀ (e1 e2 : Nat) (g a v c p : String),
      projectEq ⟨e1, g, a⟩ ⟨e2, g, a⟩ = true ∧
      projectHash ⟨e1, g, a⟩ = projectHash ⟨e2, g, a⟩ ∧
      componentEq ⟨⟨e1, g, a⟩, v⟩ ⟨⟨e2, g, a⟩, v⟩ = true ∧
      componentHash ⟨⟨e1, g, a⟩, v⟩ = componentHash ⟨⟨e2, g, a⟩, v⟩ ∧
      artifactEq ⟨⟨⟨e1, g, a⟩, v⟩, c, p⟩ ⟨⟨⟨e2, g, a⟩, v⟩, c, p⟩ = true ∧
      artifactHash ⟨⟨⟨e1, g, a⟩, v⟩, c, p⟩ = artifactHash ⟨⟨⟨e2, g, a⟩, v⟩, c, p⟩ := by
  intro e1 e2 g a v c p
  refine ⟨?_, rfl, ?_, rfl, ?_, rfl⟩ <;>
    simp [projectEq, componentEq, artifactEq]

/-- The activation scan returns `true` exactly when some condition child
is an `activeByDefault` with text `true`. -/
theorem activationScan_iff (conds : List ProfileCondition) :
    activationScan conds = true ↔
      ∃ c ∈ conds, c.tag = "activeByDefault" ∧ c.text = some "true" := by
  induction conds with
  | nil => simp [activationScan]
  | cons c rest ih =>
    by_cases hc : c.tag == "activeByDefault" && c.text == some "true"
    · simp only [activationScan, if_pos hc, true_iff]
      simp only [Bool.and_eq_true, beq_iff_eq] at hc
      exact ⟨c, List.mem_cons_self c rest, hc.1, hc.2⟩
    · simp only [activationScan, if_neg hc, ih]
      constructor
      · rintro ⟨d, hd, h1, h2⟩
        exact ⟨d, List.mem_cons_of_mem c hd, h1, h2⟩
      · rintro ⟨d, hd, h1, h2⟩
        rcases List.mem_cons.mp hd with rfl | hd2
        · exact absurd (by simp [h1, h2]) hc
        · exact ⟨d, hd2, h1, h2⟩

/-- C7: a profile is judged active iff its `<activation>` element exists
and contains an `<activeByDefault>` child with text `"true"`; a missing
`<activation>` element means inactive, and no other child (`jdk`, `os`,
`property`, `file`, or anything else) ever activates. -/
theorem c7_profile_activation :
    is_active_profile none = false ∧
      ∀ conds : List ProfileCondition,
        is_active_profile (some conds) = true ↔
          ∃ c ∈ conds, c.tag = "activeByDefault" ∧ c.text = some "true" := by
  refine ⟨rfl, ?_⟩
  intro conds
  simpa [is_active_profile] using activationScan_iff conds

/-- C7 witness: a profile whose activation lists a `jdk` condition and an
`activeByDefault=true` is active; the theorem's iff applied at that input. -/
theorem c7_profile_activation_witness :
    is_active_profile
      (some [⟨"jdk", some "1.8"⟩, ⟨"os", some "mac"⟩, ⟨"activeByDefault", some "true"⟩])
      = true :=
  (c7_profile_activation.2 _).mpr
    ⟨⟨"activeByDefault", some "true"⟩, by simp, rfl, rfl⟩

/-- C1: evaluation of Phase G (managed-version injection) at the claim's
own scenario: `deps` holds one dependency with null version and `dep_mgmt`
holds an entry under the same four-tuple key carrying version `1.2.3`.
Instead of injecting the managed version, the code raises
`ValueError: too many values to unpack (expected 2)` — the loop
`for gacp, dep in self.deps:` iterates the dict's 4-tuple keys. -/
theorem c1_phaseG_crashes :
    phaseG c1state = .error (.valueError "too many values to unpack (expected 2)") ∧
      c1dep.version = none ∧
      lookupDep c1state.dep_mgmt (depKey c1dep) = some c1mgmt ∧
      c1mgmt.version = some "1.2.3" := by
  refine ⟨rfl, rfl, ?_, rfl⟩
  decide

/-- C2: evaluation of Phase F (BOM import) at the claim's own scenario:
`dep_mgmt` holds exactly one entry of type `pom` and scope `import` — the
shape the claim says is imported. The loop `for k, dep in self.dep_mgmt:`
raises `ValueError` instead. Additionally, the (unreachable) skip
condition `dep.scope != "import" and dep.type == "pom"` does not skip a
plain `jar`/`compile` entry either, so were the loop repaired the code
would import entries the claim says are never imported. -/
theorem c2_phaseF_crashes :
    phaseF c2state = .error (.valueError "too many values to unpack (expected 2)") ∧
      c2bom.type = "pom" ∧ c2bom.scope = "import" ∧
      phaseFSkips c2bom = false ∧
      (c2jar.type = "pom" ∧ c2jar.scope = "import" → False) ∧
      phaseFSkips c2jar = false := by
  refine ⟨rfl, rfl, rfl, by decide, ?_, by decide⟩
  intro h
  exact absurd h.1 (by decide)

/-- C3: evaluation of Phase C (parent inheritance) at a descriptor that
declares a parent: the walk raises `AttributeError` on its first
iteration, because `parent = pom.parent` binds the method object itself
(the call parentheses are missing) and `self._merge(parent)` then
dereferences `.dependencies` on it. No ancestor is ever merged. -/
theorem c3_parent_walk_crashes :
    phaseC 5 c3state c3pom =
      .error (.attributeError "method object has no attribute dependencies") := rfl

/-- C4 counterexample: descriptor A of the cyclic parent chain A→B→A.
Building raises an `AttributeError` from the broken walk, not a
parent-cycle failure naming the revisited coordinate — falsifying the
claim that a revisited `(g, a, v)` triple is reported as a parent-cycle
build failure. -/
theorem c4_cycle_not_reported :
    phaseC 5 emptyMState c4pomA =
      .error (.attributeError "method object has no attribute dependencies") ∧
      isParentCycleErr (phaseC 5 emptyMState c4pomA) = false := ⟨rfl, rfl⟩

/-- C4 amended: for every descriptor — in particular any whose parent
chain revisits a `(g, a, v)` triple — the parent walk raises the
`AttributeError` build failure on its first iteration, with any positive
amount of loop fuel; no visited-triple tracking exists, so the build
neither loops nor succeeds nor raises a parent-cycle failure. -/
theorem c4_amended_walk_always_attribute_error :
    ∀ (fuel : Nat) (st : MState) (pom : POMData),
      phaseC (fuel + 1) st pom =
        .error (.attributeError "method object has no attribute dependencies") := by
  intro fuel st pom
  rfl

/-- The local-repository loop yields `download` iff no candidate exists. -/
theorem resolveLocalsGo_download_iff (fs : List PathR) (a : ArtifactR) :
    ∀ repos, resolveLocalsGo fs a repos = .download ↔
      ∀ b ∈ repos, pathExists fs (localCandidate a b) = false := by
  intro repos
  induction repos with
  | nil => simp [resolveLocalsGo]
  | cons base rest ih =>
    by_cases hb : pathExists fs (localCandidate a base)
    · simp only [resolveLocalsGo, if_pos hb]
      constructor
      · intro h; cases h
      · intro h
        exact absurd (h base (List.mem_cons_self base rest)) (by simp [hb])
    · simp only [resolveLocalsGo, if_neg hb, ih]
      constructor
      · intro h b hbmem
        rcases List.mem_cons.mp hbmem with rfl | hb2
        · simpa using hb
        · exact h b hb2
      · intro h b hbmem
        exact h b (List.mem_cons_of_mem base hbmem)

/-- The local-repository loop never reports a cache hit. -/
theorem resolveLocalsGo_ne_cachedHit (fs : List PathR) (a : ArtifactR) :
    ∀ repos p, resolveLocalsGo fs a repos ≠ .cachedHit p := by
  intro repos
  induction repos with
  | nil => intro p h; cases h
  | cons base rest ih =>
    intro p h
    by_cases hb : pathExists fs (localCandidate a base)
    · rw [resolveLocalsGo, if_pos hb] at h; cases h
    · rw [resolveLocalsGo, if_neg hb] at h; exact ih p h

/-- A local hit is the first existing candidate in repository order. -/
theorem resolveLocalsGo_localHit (fs : List PathR) (a : ArtifactR) :
    ∀ repos p, resolveLocalsGo fs a repos = .localHit p →
      ∃ pre base post, repos = pre ++ base :: post ∧ p = localCandidate a base ∧
        pathExists fs p = true ∧
        ∀ b ∈ pre, pathExists fs (localCandidate a b) = false := by
  intro repos
  induction repos with
  | nil => intro p h; cases h
  | cons base rest ih =>
    intro p h
    by_cases hb : pathExists fs (localCandidate a base)
    · rw [resolveLocalsGo, if_pos hb] at h
      cases h
      exact ⟨[], base, rest, rfl, rfl, hb, by simp⟩
    · rw [resolveLocalsGo, if_neg hb] at h
      obtain ⟨pre, b2, post, hsplit, hp, hex, hpre⟩ := ih p h
      refine ⟨base :: pre, b2, post, by simp [hsplit], hp, hex, ?_⟩
      intro b hbmem
      rcases List.mem_cons.mp hbmem with rfl | hb2
      · simpa using hb
      · exact hpre b hb2

/-- C9: `Artifact.resolve` consults sources in the fixed order
cache → read-only repositories → downloader: a cache hit is reported iff
the cache path exists; a local hit implies the cache missed and the hit is
the first existing candidate in the configured repository order; the
downloader is invoked iff the artifact exists in no local source. -/
theorem c9_resolve_order :
    ∀ (fs : List PathR) (env : EnvR) (a : ArtifactR),
      (∀ p, resolveR fs env a = .cachedHit p ↔
        (cached_path env a = some p ∧ pathExists fs p = true)) ∧
      (∀ p, resolveR fs env a = .localHit p →
        (∀ cp, cached_path env a = some cp → pathExists fs cp = false) ∧
        ∃ pre base post, env.local_repos = pre ++ base :: post ∧
          p = localCandidate a base ∧ pathExists fs p = true ∧
          ∀ b ∈ pre, pathExists fs (localCandidate a b) = false) ∧
      (resolveR fs env a = .download ↔
        ((∀ cp, cached_path env a = some cp → pathExists fs cp = false) ∧
          ∀ b ∈ env.local_repos, pathExists fs (localCandidate a b) = false)) := by
  intro fs env a
  have hres0 : resolveR fs env a =
      (match cached_path env a with
        | some cf =>
          if pathExists fs cf then .cachedHit cf else resolveLocalsGo fs a env.local_repos
        | none => resolveLocalsGo fs a env.local_repos) := rfl
  cases hcp : cached_path env a with
  | some cf =>
    rw [hcp] at hres0
    dsimp only at hres0
    by_cases hex : pathExists fs cf
    · rw [if_pos hex] at hres0
      refine ⟨?_, ?_, ?_⟩
      · intro p
        rw [hres0]
        constructor
        · intro h; cases h; exact ⟨rfl, hex⟩
        · rintro ⟨h1, -⟩
          cases h1
          rfl
      · intro p h
        rw [hres0] at h
        cases h
      · rw [hres0]
        constructor
        · intro h; cases h
        · rintro ⟨h1, -⟩
          exact absurd (h1 cf rfl) (by simp [hex])
    · rw [if_neg hex] at hres0
      have hcmiss : ∀ cp, some cf = some cp → pathExists fs cp = false := by
        intro cp h
        cases h
        simpa using hex
      refine ⟨?_, ?_, ?_⟩
      · intro p
        rw [hres0]
        constructor
        · intro h
          exact absurd h (resolveLocalsGo_ne_cachedHit fs a env.local_repos p)
        · rintro ⟨h1, h2⟩
          cases h1
          exact absurd h2 (by simp [hex])
      · intro p h
        rw [hres0] at h
        exact ⟨hcmiss, resolveLocalsGo_localHit fs a env.local_repos p h⟩
      · rw [hres0, resolveLocalsGo_download_iff]
        constructor
        · intro h
          exact ⟨hcmiss, h⟩
        · rintro ⟨-, h2⟩
          exact h2
  | none =>
    rw [hcp] at hres0
    dsimp only at hres0
    have hcmiss : ∀ cp, (none : Option PathR) = some cp → pathExists fs cp = false := by
      intro cp h
      cases h
    refine ⟨?_, ?_, ?_⟩
    · intro p
      rw [hres0]
      constructor
      · intro h
        exact absurd h (resolveLocalsGo_ne_cachedHit fs a env.local_repos p)
      · rintro ⟨h1, -⟩
        cases h1
    · intro p h
      rw [hres0] at h
      exact ⟨hcmiss, resolveLocalsGo_localHit fs a env.local_repos p h⟩
    · rw [hres0, resolveLocalsGo_download_iff]
      constructor
      · intro h
        exact ⟨hcmiss, h⟩
      · rintro ⟨-, h2⟩
        exact h2

/-- C9 witness: in the concrete scenario (no cache, roots `repo0` then
`repo1`, file present only under `repo1`) resolution reports a local hit,
and the theorem applied there yields the first-existing-candidate
decomposition. -/
theorem c9_resolve_order_witness :
    (∀ cp, cached_path env9 art9 = some cp → pathExists fs9 cp = false) ∧
    ∃ pre base post, env9.local_repos = pre ++ base :: post ∧
      ["repo1", "org", "g", "a", "1", "a-1.jar"] = localCandidate art9 base ∧
      pathExists fs9 ["repo1", "org", "g", "a", "1", "a-1.jar"] = true ∧
      ∀ b ∈ pre, pathExists fs9 (localCandidate art9 b) = false :=
  (c9_resolve_order fs9 env9 art9).2.1 ["repo1", "org", "g", "a", "1", "a-1.jar"]
    (by decide)

/-- Stable insertion permutes: inserting `d` yields a permutation of `d :: l`. -/
theorem insertDoc_perm (d : MetaDoc) :
    ∀ l : List MetaDoc, (insertDoc d l).Perm (d :: l) := by
  intro l
  induction l with
  | nil => exact List.Perm.refl _
  | cons e rest ih =>
    by_cases he : luKey e ≤ luKey d
    · rw [insertDoc, if_pos he]
      exact (ih.cons e).trans (List.Perm.swap d e rest)
    · rw [insertDoc, if_neg he]

/-- The sort is a permutation of its input. -/
theorem sortDocs_perm (docs : List MetaDoc) : (sortDocs docs).Perm docs := by
  have main : ∀ (ds : List MetaDoc) (acc : List MetaDoc),
      (ds.foldl (fun acc d => insertDoc d acc) acc).Perm (acc ++ ds) := by
    intro ds
    induction ds with
    | nil => intro acc; simp
    | cons d rest ih =>
      intro acc
      have h1 := ih (insertDoc d acc)
      have h2 : (insertDoc d acc ++ rest).Perm ((d :: acc) ++ rest) :=
        List.Perm.append_right rest (insertDoc_perm d acc)
      have h3 : (acc ++ d :: rest).Perm (d :: (acc ++ rest)) := List.perm_middle
      exact ((h1.trans h2).trans (List.Perm.refl _)).trans h3.symm
  simpa using main docs []

/-- Members of an insertion are the inserted element or old members. -/
theorem mem_insertDoc {x d : MetaDoc} {l : List MetaDoc}
    (h : x ∈ insertDoc d l) : x = d ∨ x ∈ l := by
  have := (insertDoc_perm d l).mem_iff.mp h
  simpa using this

/-- Stable insertion preserves ascending sortedness of the timestamp keys. -/
theorem insertDoc_sorted (d : MetaDoc) :
    ∀ l : List MetaDoc, List.Pairwise (fun a b => luKey a ≤ luKey b) l →
      List.Pairwise (fun a b => luKey a ≤ luKey b) (insertDoc d l) := by
  intro l
  induction l with
  | nil => intro _; simp [insertDoc]
  | cons e rest ih =>
    intro hp
    rw [List.pairwise_cons] at hp
    obtain ⟨he, hrest⟩ := hp
    by_cases hle : luKey e ≤ luKey d
    · rw [insertDoc, if_pos hle]
      rw [List.pairwise_cons]
      refine ⟨?_, ih hrest⟩
      intro x hx
      rcases mem_insertDoc hx with rfl | hx2
      · exact hle
      · exact he x hx2
    · rw [insertDoc, if_neg hle]
      rw [List.pairwise_cons]
      refine ⟨?_, by rw [List.pairwise_cons]; exact ⟨he, hrest⟩⟩
      intro x hx
      rcases List.mem_cons.mp hx with rfl | hx2
      · omega
      · exact le_trans (by omega) (he x hx2)

/-- The sorted list is ascending in the timestamp keys. -/
theorem sortDocs_sorted (docs : List MetaDoc) :
    List.Pairwise (fun a b => luKey a ≤ luKey b) (sortDocs docs) := by
  have main : ∀ (ds : List MetaDoc) (acc : List MetaDoc),
      List.Pairwise (fun a b => luKey a ≤ luKey b) acc →
        List.Pairwise (fun a b => luKey a ≤ luKey b)
          (ds.foldl (fun acc d => insertDoc d acc) acc) := by
    intro ds
    induction ds with
    | nil => intro acc h; simpa using h
    | cons d rest ih =>
      intro acc h
      exact ih (insertDoc d acc) (insertDoc_sorted d acc h)
  exact main docs [] (by simp)

/-- When no scanned value is the empty string, the code's truthiness scan
agrees with the spec's "first non-absent" scan. -/
theorem firstTruthy_eq_firstNonAbsent :
    ∀ l : List (Option String), (∀ o ∈ l, o ≠ some "") →
      firstTruthy l = firstNonAbsent l := by
  intro l
  induction l with
  | nil => intro _; rfl
  | cons o rest ih =>
    intro h
    cases o with
    | none =>
      rw [firstTruthy, if_neg (by simp [pyTruthyStr])]
      rw [ih (fun x hx => h x (List.mem_cons_of_mem none hx))]
      simp [firstNonAbsent]
    | some s =>
      have hs : s ≠ "" := by
        intro hs
        exact h (some s) (List.mem_cons_self _ _) (by rw [hs])
      rw [firstTruthy, if_pos (by simp [pyTruthyStr, hs])]
      simp [firstNonAbsent]

/-- The pairwise group/artifact assertion holds iff every two documents of
the list agree on `(groupId, artifactId)`. -/
theorem pairwiseGA_iff :
    ∀ l : List MetaDoc, pairwiseGA l = true ↔
      ∀ a ∈ l, ∀ b ∈ l, a.groupId = b.groupId ∧ a.artifactId = b.artifactId := by
  intro l
  induction l with
  | nil => simp [pairwiseGA]
  | cons d rest ih =>
    rw [pairwiseGA, Bool.and_eq_true, List.all_eq_true, ih]
    constructor
    · rintro ⟨hall, hrest⟩ a ha b hb
      rcases List.mem_cons.mp ha with rfl | ha2 <;>
        rcases List.mem_cons.mp hb with rfl | hb2
      · exact ⟨rfl, rfl⟩
      · have := hall b hb2
        simp only [Bool.and_eq_true, beq_iff_eq] at this
        exact this
      · have := hall a ha2
        simp only [Bool.and_eq_true, beq_iff_eq] at this
        exact ⟨this.1.symm, this.2.symm⟩
      · exact hrest a ha2 b hb2
    · intro h
      constructor
      · intro e he
        have := h d (List.mem_cons_self _ _) e (List.mem_cons_of_mem d he)
        simp only [Bool.and_eq_true, beq_iff_eq]
        exact this
      · intro a ha b hb
        exact h a (List.mem_cons_of_mem d ha) b (List.mem_cons_of_mem d hb)

/-- In an ascending list, the last element carries a maximal key. -/
theorem sorted_getLast_max :
    ∀ l : List MetaDoc, List.Pairwise (fun a b => luKey a ≤ luKey b) l →
      ∀ m, l.getLast? = some m → ∀ d ∈ l, luKey d ≤ luKey m := by
  intro l
  induction l with
  | nil => intro _ m hm; cases hm
  | cons a rest ih =>
    intro hp m hm d hd
    rw [List.pairwise_cons] at hp
    obtain ⟨ha, hrest⟩ := hp
    cases rest with
    | nil =>
      simp only [List.getLast?_singleton, Option.some.injEq] at hm
      subst hm
      rcases List.mem_cons.mp hd with rfl | hd2
      · exact le_refl _
      · cases hd2
    | cons b rest2 =>
      rw [List.getLast?_cons_cons] at hm
      have hmax := ih hrest m hm
      rcases List.mem_cons.mp hd with rfl | hd2
      · have hmem : m ∈ b :: rest2 := List.mem_of_mem_getLast? hm
        exact le_trans (ha m hmem) (le_refl _)
      · exact hmax d hd2

/-- C8: the metadata aggregator sorts the documents ascending by
`lastUpdated` (a permutation of the inputs), concatenates their `versions`
lists in that order, takes `latest`/`release` as the most recent
non-absent value scanning newest-first, takes `lastUpdated` from the
newest document (one of maximal key), and constructs successfully iff all
aggregated documents share identical `(groupId, artifactId)`.
Hypotheses: every document carries a timestamp (Python's `sorted` would
raise `TypeError` on absent ones) and no empty-string `latest`/`release`
(impossible for documents parsed from XML, where empty text is absent). -/
theorem c8_metadatas_aggregate :
    ∀ docs : List MetaDoc,
      (∀ d ∈ docs, d.lastUpdated.isSome = true) →
      (∀ d ∈ docs, d.latest ≠ some "" ∧ d.release ≠ some "") →
      (∀ agg, mkMetadatas docs = .ok agg →
        ∃ l, l.Perm docs ∧ List.Pairwise (fun a b => luKey a ≤ luKey b) l ∧
          agg.metadatas = l ∧
          agg.versionsAgg = (l.map MetaDoc.versions).flatten ∧
          agg.latestAgg = firstNonAbsent (l.reverse.map MetaDoc.latest) ∧
          agg.releaseAgg = firstNonAbsent (l.reverse.map MetaDoc.release) ∧
          (docs ≠ [] → ∃ m, l.getLast? = some m ∧
            agg.lastUpdatedAgg = m.lastUpdated ∧ ∀ d ∈ docs, luKey d ≤ luKey m)) ∧
      ((∃ agg, mkMetadatas docs = .ok agg) ↔
        ∀ a ∈ docs, ∀ b ∈ docs, a.groupId = b.groupId ∧ a.artifactId = b.artifactId) := by
  intro docs _h1 h2
  have hperm := sortDocs_perm docs
  have hsort := sortDocs_sorted docs
  constructor
  · intro agg hok
    rw [mkMetadatas] at hok
    by_cases hga : pairwiseGA (sortDocs docs)
    · rw [if_pos hga] at hok
      cases hok
      refine ⟨sortDocs docs, hperm, hsort, rfl, rfl, ?_, ?_, ?_⟩
      · rw [MetadatasR.latestAgg]
        refine firstTruthy_eq_firstNonAbsent _ ?_
        intro o ho
        rw [List.mem_map] at ho
        obtain ⟨d, hd, rfl⟩ := ho
        have hd2 : d ∈ docs := hperm.mem_iff.mp (List.mem_reverse.mp hd)
        exact (h2 d hd2).1
      · rw [MetadatasR.releaseAgg]
        refine firstTruthy_eq_firstNonAbsent _ ?_
        intro o ho
        rw [List.mem_map] at ho
        obtain ⟨d, hd, rfl⟩ := ho
        have hd2 : d ∈ docs := hperm.mem_iff.mp (List.mem_reverse.mp hd)
        exact (h2 d hd2).2
      · intro hne
        have hlne : sortDocs docs ≠ [] := by
          intro h0
          rw [h0] at hperm
          exact hne hperm.nil_eq.symm
        obtain ⟨m, hm⟩ := Option.ne_none_iff_exists'.mp
          (mt List.getLast?_eq_none_iff.mp hlne)
        refine ⟨m, hm, ?_, ?_⟩
        · rw [MetadatasR.lastUpdatedAgg]
          simp [hm]
        · intro d hd
          exact sorted_getLast_max (sortDocs docs) hsort m hm d (hperm.mem_iff.mpr hd)
    · rw [if_neg hga] at hok
      cases hok
  · constructor
    · rintro ⟨agg, hok⟩
      rw [mkMetadatas] at hok
      by_cases hga : pairwiseGA (sortDocs docs)
      · have hall : ∀ a ∈ sortDocs docs, ∀ b ∈ sortDocs docs,
            a.groupId = b.groupId ∧ a.artifactId = b.artifactId :=
          (pairwiseGA_iff _).mp hga
        intro a ha b hb
        exact hall a (hperm.mem_iff.mpr ha) b (hperm.mem_iff.mpr hb)
      · rw [if_neg hga] at hok
        cases hok
    · intro h
      have hga : pairwiseGA (sortDocs docs) = true := by
        rw [pairwiseGA_iff]
        intro a ha b hb
        exact h a (hperm.mem_iff.mp ha) b (hperm.mem_iff.mp hb)
      exact ⟨⟨sortDocs docs⟩, by rw [mkMetadatas, if_pos hga]⟩

/-- C8 witness: the theorem applied to the concrete two-document
collection `c8docs` (hypotheses discharged by computation), plus a
computed check that construction succeeds with the ascending order. -/
theorem c8_metadatas_aggregate_witness :
    (mkMetadatas c8docs = .ok c8agg) ∧
    ((∀ agg, mkMetadatas c8docs = .ok agg →
        ∃ l, l.Perm c8docs ∧ List.Pairwise (fun a b => luKey a ≤ luKey b) l ∧
          agg.metadatas = l ∧
          agg.versionsAgg = (l.map MetaDoc.versions).flatten ∧
          agg.latestAgg = firstNonAbsent (l.reverse.map MetaDoc.latest) ∧
          agg.releaseAgg = firstNonAbsent (l.reverse.map MetaDoc.release) ∧
          (c8docs ≠ [] → ∃ m, l.getLast? = some m ∧
            agg.lastUpdatedAgg = m.lastUpdated ∧ ∀ d ∈ c8docs, luKey d ≤ luKey m)) ∧
      ((∃ agg, mkMetadatas c8docs = .ok agg) ↔
        ∀ a ∈ c8docs, ∀ b ∈ c8docs,
          a.groupId = b.groupId ∧ a.artifactId = b.artifactId)) :=
  ⟨rfl, c8_metadatas_aggregate c8docs (by decide) (by decide)⟩

/-- Prefix boolean agrees with the propositional decomposition. -/
theorem strHasPre_iff : ∀ p s : Str, strHasPre p s = true ↔ preP p s := by
  intro p
  induction p with
  | nil =>
    intro s
    simp [strHasPre, preP]
  | cons c p ih =>
    intro s
    cases s with
    | nil =>
      simp only [strHasPre, preP]
      constructor
      · intro h; cases h
      · rintro ⟨r, hr⟩; cases hr
    | cons d s2 =>
      simp only [strHasPre, Bool.and_eq_true, beq_iff_eq, ih]
      constructor
      · rintro ⟨rfl, r, rfl⟩
        exact ⟨r, rfl⟩
      · rintro ⟨r, hr⟩
        simp only [List.cons_append, List.cons.injEq] at hr
        obtain ⟨rfl, hr2⟩ := hr
        exact ⟨rfl, r, hr2⟩

/-- Peeling equal heads off a prefix relation. -/
theorem preP_cons {a b : Char} {x y : Str} :
    preP (a :: x) (b :: y) ↔ a = b ∧ preP x y := by
  constructor
  · rintro ⟨r, hr⟩
    simp only [List.cons_append, List.cons.injEq] at hr
    exact ⟨hr.1.symm, r, hr.2⟩
  · rintro ⟨rfl, r, hr⟩
    exact ⟨r, by simp [hr]⟩

/-- A prefix is no longer than the whole. -/
theorem preP_length {p s : Str} (h : preP p s) : p.length ≤ s.length := by
  obtain ⟨r, rfl⟩ := h
  simp

/-- Two prefixes of the same list are comparable (the shorter one is a
prefix of the longer one). -/
theorem preP_comparable {a b s : Str} (ha : preP a s) (hb : preP b s)
    (hlen : a.length ≤ b.length) : preP a b := by
  obtain ⟨ra, rfl⟩ := ha
  obtain ⟨rb, hb2⟩ := hb
  have h1 : (a ++ ra).take b.length = b := by rw [hb2]; simp
  have h2 : (a ++ ra).take b.length = a ++ ra.take (b.length - a.length) := by
    rw [List.take_append_eq_append_take, List.take_of_length_le hlen]
  exact ⟨ra.take (b.length - a.length), h1.symm.trans h2⟩

/-- Substring boolean agrees with the propositional decomposition. -/
theorem containsSub_iff : ∀ s q : Str, containsSub s q = true ↔ ∃ u v, s = u ++ q ++ v := by
  intro s
  induction s with
  | nil =>
    intro q
    rw [containsSub]
    cases q with
    | nil => simp [strHasPre]
    | cons c qr =>
      simp only [strHasPre, if_neg (by simp : ¬ (false = true))]
      constructor
      · intro h; cases h
      · rintro ⟨u, v, huv⟩
        exact absurd huv.symm (by simp)
  | cons c s2 ih =>
    intro q
    rw [containsSub]
    by_cases hp : strHasPre q (c :: s2)
    · rw [if_pos hp]
      simp only [true_iff]
      obtain ⟨r, hr⟩ := (strHasPre_iff q (c :: s2)).mp hp
      exact ⟨[], r, by simp [hr]⟩
    · rw [if_neg hp]
      rw [ih]
      constructor
      · rintro ⟨u, v, huv⟩
        exact ⟨c :: u, v, by simp [huv]⟩
      · rintro ⟨u, v, huv⟩
        cases u with
        | nil =>
          exfalso
          apply hp
          rw [strHasPre_iff]
          simp only [List.nil_append] at huv
          exact ⟨v, huv⟩
        | cons d u2 =>
          simp only [List.cons_append, List.cons_eq_cons] at huv
          exact ⟨u2, v, huv.2⟩

/-- Updating a key makes it look up to the new value. -/
theorem lookup_setProp_self : ∀ (ps : PropsL) (k v : Str),
    lookupProp (setProp ps k v) k = some v := by
  intro ps k v
  induction ps with
  | nil => simp [setProp, lookupProp]
  | cons kv rest ih =>
    obtain ⟨k2, v2⟩ := kv
    by_cases hk : k2 = k
    · rw [setProp, if_pos hk, lookupProp, if_pos hk]
    · rw [setProp, if_neg hk, lookupProp, if_neg hk]
      exact ih

/-- Updating one key leaves other keys' lookups unchanged. -/
theorem lookup_setProp_ne : ∀ (ps : PropsL) (k v k2 : Str), k2 ≠ k →
    lookupProp (setProp ps k v) k2 = lookupProp ps k2 := by
  intro ps k v k2 hne
  induction ps with
  | nil =>
    simp [setProp, lookupProp, Ne.symm hne]
  | cons kv rest ih =>
    obtain ⟨k3, v3⟩ := kv
    by_cases hk : k3 = k
    · subst hk
      rw [setProp, if_pos rfl, lookupProp, lookupProp,
        if_neg (fun h => hne h.symm), if_neg (fun h => hne h.symm)]
    · rw [setProp, if_neg hk, lookupProp, lookupProp]
      by_cases hk2 : k3 = k2
      · rw [if_pos hk2, if_pos hk2]
      · rw [if_neg hk2, if_neg hk2]
        exact ih

/-- Updating an already-present key preserves which keys are absent. -/
theorem lookup_setProp_none_iff (ps : PropsL) (k v : Str)
    (hk : lookupProp ps k ≠ none) :
    ∀ k2, lookupProp (setProp ps k v) k2 = none ↔ lookupProp ps k2 = none := by
  intro k2
  by_cases hkk : k2 = k
  · subst hkk
    rw [lookup_setProp_self]
    constructor
    · intro h; cases h
    · intro h; exact absurd h hk
  · rw [lookup_setProp_ne ps k v k2 hkk]

/-- Embeds `replaceAll` on the empty subject. -/
theorem replaceAll_nil (p t : Str) : replaceAll [] p t = [] := by
  cases p with
  | nil => rw [replaceAll]
  | cons c p2 => rw [replaceAll]

/-- Every string is a prefix of itself. -/
theorem strHasPre_refl : ∀ p : Str, strHasPre p p = true := by
  intro p
  rw [strHasPre_iff]
  exact ⟨[], by simp⟩

/-- Replacing a pattern inside exactly the pattern yields the replacement:
`p.replace(p, t) = t`. -/
theorem replaceAll_self (p t : Str) (hp : p ≠ []) : replaceAll p p t = t := by
  cases p with
  | nil => exact absurd rfl hp
  | cons c p2 =>
    rw [replaceAll, if_pos (strHasPre_refl _)]
    simp only [List.length_cons, List.drop_succ_cons]
    rw [List.drop_length, replaceAll_nil, List.append_nil]

/-- Scanning `before ++ '}' :: after` with no `}` in `before` finds the
split at that `}`. -/
theorem takeUntilRBrace_append : ∀ (pre post : Str), '}' ∉ pre →
    takeUntilRBrace (pre ++ '}' :: post) = some (pre, post) := by
  intro pre
  induction pre with
  | nil => intro post _; rw [List.nil_append, takeUntilRBrace, if_pos rfl]
  | cons c rest ih =>
    intro post hmem
    have hc : c ≠ '}' := fun h => hmem (h ▸ List.mem_cons_self c rest)
    rw [List.cons_append, takeUntilRBrace, if_neg hc,
      ih post (fun h => hmem (List.mem_cons_of_mem c h))]

/-- The reference scan of the empty string. -/
theorem findRefs_nil : findRefs [] = [] := by
  rw [findRefs.eq_def]

/-- Unfolding the reference scan at a successful brace split. -/
theorem findRefs_cons_match (rest name rest2 : Str)
    (h : takeUntilRBrace rest = some (name, rest2)) :
    findRefs ('$' :: '{' :: rest) = name :: findRefs rest2 := by
  rw [findRefs]
  split
  next n2 r3 heq =>
    rw [heq] at h
    simp only [Option.some.injEq, Prod.mk.injEq] at h
    rw [h.1, h.2]
  next heq =>
    rw [heq] at h
    cases h

/-- Unfolding the reference scan when no closing brace remains. -/
theorem findRefs_cons_none (rest : Str) (h : takeUntilRBrace rest = none) :
    findRefs ('$' :: '{' :: rest) = [] := by
  rw [findRefs]
  split
  next n2 r3 heq =>
    rw [heq] at h
    cases h
  next heq => rfl

/-- Unfolding the reference scan over a non-`${` head character. -/
theorem findRefs_cons_skip (c : Char) (rest : Str)
    (hne : ∀ r2 : Str, c = '$' → rest = '{' :: r2 → False) :
    findRefs (c :: rest) = findRefs rest := by
  rw [findRefs.eq_def]
  split
  next r0 heq =>
    simp only [List.cons.injEq] at heq
    exact (hne r0 heq.1 heq.2).elim
  next head r0 hdisj heq =>
    simp only [List.cons.injEq] at heq
    rw [heq.2]
  next heq => cases heq

/-- Names found by the reference scan never contain `}`. -/
theorem findRefs_no_rbrace : ∀ (s : Str), ∀ r ∈ findRefs s, '}' ∉ r := by
  intro s
  induction s using findRefs.induct with
  | case1 rest name rest2 h ih =>
    intro r hr
    rw [findRefs_cons_match rest name rest2 h] at hr
    rcases List.mem_cons.mp hr with rfl | hr2
    · exact (takeUntilRBrace_eq h).2
    · exact ih r hr2
  | case2 rest h =>
    intro r hr
    rw [findRefs_cons_none rest h] at hr
    cases hr
  | case3 c rest hne ih =>
    intro r hr
    rw [findRefs_cons_skip c rest hne] at hr
    exact ih r hr
  | case4 =>
    intro r hr
    rw [findRefs_nil] at hr
    cases hr

/-- Every found reference name occurs in the scanned string as its
`${name}` literal. -/
theorem findRefs_occurs : ∀ (s : Str), ∀ r ∈ findRefs s, ∃ u v, s = u ++ lit r ++ v := by
  intro s
  induction s using findRefs.induct with
  | case1 rest name rest2 h ih =>
    intro r hr
    rw [findRefs_cons_match rest name rest2 h] at hr
    obtain ⟨hd, -⟩ := takeUntilRBrace_eq h
    rcases List.mem_cons.mp hr with rfl | hr2
    · exact ⟨[], rest2, by simp [lit, hd]⟩
    · obtain ⟨u, v, huv⟩ := ih r hr2
      exact ⟨'$' :: '{' :: (name ++ ['}'] ++ u), v, by simp [hd, huv]⟩
  | case2 rest h =>
    intro r hr
    rw [findRefs_cons_none rest h] at hr
    cases hr
  | case3 c rest hne ih =>
    intro r hr
    rw [findRefs_cons_skip c rest hne] at hr
    obtain ⟨u, v, huv⟩ := ih r hr
    exact ⟨c :: u, v, by simp [huv]⟩
  | case4 =>
    intro r hr
    rw [findRefs_nil] at hr
    cases hr

/-- Scanning exactly one literal `${name}` (with `}`-free name) finds
exactly that name. -/
theorem findRefs_lit (r : Str) (hr : '}' ∉ r) : findRefs (lit r) = [r] := by
  have h1 : findRefs ('$' :: '{' :: (r ++ '}' :: [])) = r :: findRefs [] :=
    findRefs_cons_match (r ++ '}' :: []) r [] (takeUntilRBrace_append r [] hr)
  rw [lit, h1, findRefs_nil]

/-- Deduplication of the empty list. -/
theorem eraseDups_nil : eraseDups ([] : List Str) = [] := by
  rw [eraseDups]

/-- Deduplication only drops elements. -/
theorem eraseDups_subset : ∀ (l : List Str), ∀ x ∈ eraseDups l, x ∈ l := by
  intro l
  induction l using eraseDups.induct with
  | case1 =>
    intro x hx
    rw [eraseDups_nil] at hx
    cases hx
  | case2 y ys ih =>
    intro x hx
    rw [eraseDups] at hx
    rcases List.mem_cons.mp hx with rfl | hx2
    · exact List.mem_cons_self _ _
    · exact List.mem_cons_of_mem _ (List.mem_of_mem_filter (ih x hx2))

/-- A clean name has no tail beginning with `${`. -/
theorem cleanName_no_drop (x : Str) (hc : cleanName x = true) :
    ∀ j s2, x.drop j ≠ '$' :: '{' :: s2 := by
  intro j s2 h
  have hcontains : containsSub x dollarBrace = true := by
    rw [containsSub_iff]
    refine ⟨x.take j, s2, ?_⟩
    conv_lhs => rw [← List.take_append_drop j x]
    rw [h]
    simp [dollarBrace]
  rw [cleanName, hcontains] at hc
  cases hc

/-- Matching `r}` against `name}…` forces `r = name` when neither name
contains `}`. -/
theorem litTail_preP_eq : ∀ (r name w : Str), '}' ∉ r → '}' ∉ name →
    preP (r ++ ['}']) (name ++ '}' :: w) → r = name := by
  intro r
  induction r with
  | nil =>
    intro name w _ hn h
    cases name with
    | nil => rfl
    | cons c nr =>
      simp only [List.nil_append, List.cons_append] at h
      rw [preP_cons] at h
      exact absurd (h.1.symm ▸ List.mem_cons_self c nr) (h.1 ▸ hn)
  | cons a r2 ih =>
    intro name w hr hn h
    cases name with
    | nil =>
      simp only [List.cons_append, List.nil_append] at h
      rw [preP_cons] at h
      obtain ⟨h1, -⟩ := h
      subst h1
      exact absurd (List.mem_cons_self _ _) hr
    | cons c nr =>
      simp only [List.cons_append] at h
      rw [preP_cons] at h
      obtain ⟨rfl, h2⟩ := h
      have hr2 : '}' ∉ r2 := fun hm => hr (List.mem_cons_of_mem a hm)
      have hn2 : '}' ∉ nr := fun hm => hn (List.mem_cons_of_mem a hm)
      rw [ih nr w hr2 hn2 h2]

/-- Literals of distinct clean, `}`-free names cannot overlap. -/
theorem mkOverlapFree (r name : Str) (hrn : r ≠ name) (hr : '}' ∉ r)
    (hn : '}' ∉ name) (hcr : cleanName r = true) (hcn : cleanName name = true) :
    overlapFreeP (lit r) (lit name) := by
  constructor
  · intro k hk w hpre
    rcases k with _ | k1
    · rw [List.drop_zero] at hpre
      rw [lit, lit] at hpre
      simp only [List.cons_append] at hpre
      rw [preP_cons] at hpre
      rw [preP_cons] at hpre
      have h2 := hpre.2.2
      rw [List.append_assoc] at h2
      simp only [List.singleton_append] at h2
      exact hrn (litTail_preP_eq r name w hr hn h2)
    · rcases k1 with _ | j
      · rw [lit, lit] at hpre
        simp only [List.drop_succ_cons, List.drop_zero, List.cons_append] at hpre
        rw [preP_cons] at hpre
        exact absurd hpre.1 (by decide)
      · rw [lit, lit] at hpre
        simp only [List.drop_succ_cons] at hpre
        rw [lit] at hk
        simp only [List.length_cons, List.length_append, List.length_singleton, List.length_nil] at hk
        have hj : j ≤ name.length := by omega
        rw [List.drop_append_of_le_length hj] at hpre
        cases hnd : name.drop j with
        | nil =>
          rw [hnd] at hpre
          simp only [List.nil_append, List.singleton_append, List.cons_append] at hpre
          rw [preP_cons] at hpre
          exact absurd hpre.1 (by decide)
        | cons c s1 =>
          rw [hnd] at hpre
          simp only [List.cons_append] at hpre
          rw [preP_cons] at hpre
          obtain ⟨h1, h2⟩ := hpre
          cases s1 with
          | nil =>
            simp only [List.nil_append, List.singleton_append] at h2
            rw [preP_cons] at h2
            exact absurd h2.1 (by decide)
          | cons c2 s2 =>
            simp only [List.cons_append] at h2
            rw [preP_cons] at h2
            obtain ⟨h3, -⟩ := h2
            exact cleanName_no_drop name hcn j s2 (by rw [hnd, ← h1, ← h3])
  · intro m hm0 hmlen
    rcases m with _ | m1
    · exact absurd hm0 (by omega)
    · rcases m1 with _ | j
      · constructor
        · intro hpre
          rw [lit, lit] at hpre
          simp only [List.drop_succ_cons, List.drop_zero] at hpre
          rw [preP_cons] at hpre
          exact absurd hpre.1 (by decide)
        · intro hpre
          rw [lit, lit] at hpre
          simp only [List.drop_succ_cons, List.drop_zero] at hpre
          rw [preP_cons] at hpre
          exact absurd hpre.1 (by decide)
      · rw [lit] at hmlen
        simp only [List.length_cons, List.length_append, List.length_singleton, List.length_nil] at hmlen
        have hj : j ≤ r.length := by omega
        constructor
        · intro hpre
          rw [lit, lit] at hpre
          simp only [List.drop_succ_cons] at hpre
          rw [List.drop_append_of_le_length hj] at hpre
          cases hrd : r.drop j with
          | nil =>
            rw [hrd] at hpre
            simp only [List.nil_append, List.singleton_append] at hpre
            rw [preP_cons] at hpre
            exact absurd hpre.1 (by decide)
          | cons c s1 =>
            rw [hrd] at hpre
            simp only [List.cons_append] at hpre
            rw [preP_cons] at hpre
            obtain ⟨h1, h2⟩ := hpre
            cases s1 with
            | nil =>
              simp only [List.nil_append, List.singleton_append] at h2
              rw [preP_cons] at h2
              exact absurd h2.1 (by decide)
            | cons c2 s2 =>
              simp only [List.cons_append] at h2
              rw [preP_cons] at h2
              obtain ⟨h3, -⟩ := h2
              exact cleanName_no_drop r hcr j s2 (by rw [hrd, ← h1, ← h3])
        · intro hpre
          rw [lit, lit] at hpre
          simp only [List.drop_succ_cons] at hpre
          rw [List.drop_append_of_le_length hj] at hpre
          cases hrd : r.drop j with
          | nil =>
            rw [hrd] at hpre
            simp only [List.nil_append] at hpre
            obtain ⟨w2, hw2⟩ := hpre
            simp only [List.cons_append, List.cons.injEq] at hw2
            exact absurd hw2.1.symm (by decide)
          | cons c s1 =>
            rw [hrd] at hpre
            simp only [List.cons_append] at hpre
            rw [preP_cons] at hpre
            obtain ⟨h1, h2⟩ := hpre
            cases s1 with
            | nil =>
              simp only [List.nil_append] at h2
              obtain ⟨w2, hw2⟩ := h2
              simp only [List.cons_append, List.cons.injEq] at hw2
              exact absurd hw2.1.symm (by decide)
            | cons c2 s2 =>
              simp only [List.cons_append] at h2
              rw [preP_cons] at h2
              obtain ⟨h3, -⟩ := h2
              exact cleanName_no_drop r hcr j s2 (by rw [hrd, h1, h3])

/-- No replacement can begin inside the protected segment `q`: replacing
over `q.drop k ++ v` copies the rest of `q` verbatim and continues in `v`. -/
theorem replaceAll_insideSafe (p q t : Str) (hp : p ≠ [])
    (hof : ∀ k, k < q.length → ∀ w, ¬ preP p (q.drop k ++ w)) :
    ∀ n k, q.length - k = n → k ≤ q.length →
      ∀ v, replaceAll (q.drop k ++ v) p t = q.drop k ++ replaceAll v p t := by
  intro n
  induction n with
  | zero =>
    intro k hn hle v
    have hk : k = q.length := by omega
    subst hk
    rw [List.drop_length, List.nil_append, List.nil_append]
  | succ m ih =>
    intro k hn hle v
    have hklt : k < q.length := by omega
    cases p with
    | nil => exact absurd rfl hp
    | cons pc pp =>
      rw [List.drop_eq_getElem_cons hklt]
      simp only [List.cons_append]
      rw [replaceAll]
      have hofk := hof k hklt v
      rw [List.drop_eq_getElem_cons hklt] at hofk
      simp only [List.cons_append] at hofk
      have hnot : ¬ strHasPre (pc :: pp) (q[k] :: (q.drop (k + 1) ++ v)) = true := by
        intro hpre
        exact hofk ((strHasPre_iff _ _).mp hpre)
      rw [if_neg hnot]
      rw [ih (k + 1) (by omega) (by omega) v]

/-- Replacement preserves an occurrence of `q` when `p` cannot overlap
`q`: if `q` occurs in `s`, it still occurs in `s.replace(p, t)`. -/
theorem replaceAll_keeps (p q t : Str) (hp : p ≠ []) (hq : q ≠ [])
    (hof : overlapFreeP p q) :
    ∀ n s, s.length ≤ n → (∃ u v, s = u ++ q ++ v) →
      ∃ u2 v2, replaceAll s p t = u2 ++ q ++ v2 := by
  intro n
  induction n with
  | zero =>
    intro s hs h
    obtain ⟨u, v, rfl⟩ := h
    exfalso
    cases q with
    | nil => exact hq rfl
    | cons c q2 => simp at hs
  | succ m ih =>
    intro s hs h
    obtain ⟨u, v, rfl⟩ := h
    cases u with
    | nil =>
      rw [List.nil_append]
      have hins := replaceAll_insideSafe p q t hp hof.1 (q.length - 0) 0 rfl
        (by omega) v
      rw [List.drop_zero] at hins
      exact ⟨[], replaceAll v p t, by rw [List.nil_append, hins]⟩
    | cons c u2 =>
      cases p with
      | nil => exact absurd rfl hp
      | cons pc pp =>
        simp only [List.cons_append] at hs ⊢
        simp only [List.length_cons] at hs
        by_cases hpre : strHasPre (pc :: pp) (c :: (u2 ++ q ++ v))
        · obtain ⟨rp, hrp⟩ := (strHasPre_iff _ _).mp hpre
          by_cases hlen : (pc :: pp).length ≤ (c :: u2).length
          · have hppre : preP (pc :: pp) (c :: u2) := by
              refine preP_comparable ⟨rp, hrp⟩ ⟨q ++ v, ?_⟩ hlen
              simp
            obtain ⟨u3, hu3⟩ := hppre
            rw [replaceAll, if_pos hpre]
            have hs2 : c :: (u2 ++ q ++ v) = (pc :: pp) ++ (u3 ++ q ++ v) := by
              rw [show (pc :: pp) ++ (u3 ++ q ++ v) = ((pc :: pp) ++ u3) ++ q ++ v by
                simp]
              rw [← hu3]
              simp
            have hdrop : (c :: (u2 ++ q ++ v)).drop (pc :: pp).length = u3 ++ q ++ v := by
              rw [hs2, List.drop_left]
            rw [hdrop]
            have hlen3 : u3.length + q.length + v.length ≤ m := by
              have hlu : (c :: u2).length = (pc :: pp).length + u3.length := by
                rw [hu3]
                simp only [List.length_cons, List.length_append]
              simp only [List.length_cons] at hlu
              simp only [List.length_append] at hs
              simp only [List.length_cons] at hlen
              omega
            obtain ⟨u4, v4, hu4⟩ := ih (u3 ++ q ++ v)
              (by simp only [List.length_append]; omega)
              ⟨u3, v, rfl⟩
            exact ⟨t ++ u4, v4, by rw [hu4]; simp⟩
          · exfalso
            have hupre : preP (c :: u2) (pc :: pp) := by
              refine preP_comparable ⟨q ++ v, by simp⟩ ⟨rp, hrp⟩ (by omega)
            obtain ⟨p2, hp2⟩ := hupre
            have hlenp : (pc :: pp).length = (c :: u2).length + p2.length := by
              rw [hp2]
              simp only [List.length_cons, List.length_append]
            have hp2ne : p2 ≠ [] := by
              intro h0
              rw [h0] at hlenp
              simp only [List.length_nil] at hlenp
              omega
            have hqv : q ++ v = p2 ++ rp := by
              have h1 : (c :: u2) ++ (q ++ v) = (c :: u2) ++ (p2 ++ rp) := by
                rw [show (c :: u2) ++ (q ++ v) = c :: (u2 ++ q ++ v) by simp]
                rw [hrp, hp2]
                simp
              exact List.append_cancel_left h1
            have hm : (c :: u2).length < (pc :: pp).length := by omega
            have hdropp : (pc :: pp).drop (c :: u2).length = p2 := by
              rw [hp2, List.drop_left]
            have hpart := hof.2 (c :: u2).length (by simp) hm
            rw [hdropp] at hpart
            by_cases hcmp : p2.length ≤ q.length
            · exact hpart.1 (preP_comparable ⟨rp, hqv⟩ ⟨v, rfl⟩ hcmp)
            · exact hpart.2 (preP_comparable ⟨v, rfl⟩ ⟨rp, hqv⟩ (by omega))
        · rw [replaceAll, if_neg hpre]
          obtain ⟨u4, v4, hu4⟩ := ih (u2 ++ q ++ v)
            (by
              simp only [List.length_append]
              simp only [List.length_append] at hs
              omega)
            ⟨u2, v, rfl⟩
          exact ⟨c :: u4, v4, by rw [hu4]; simp⟩

/-- Inversion of a successful `_propvalue` call: either the property is
absent (`None` result, untouched map) or it is present, its value was
recursively evaluated, and the result was memoized. -/
theorem propvalueA_ok_cases :
    ∀ fuel name props vis o props2 vis2,
      propvalueA fuel name props vis = .ok (o, props2, vis2) →
      (o = none ∧ props2 = props ∧ lookupProp props name = none) ∨
      (∃ t e0 propsE visE, o = some t ∧ lookupProp props name = some e0 ∧
        evaluateA (fuel - 1) e0 props (some (name :: vis)) = .ok (t, propsE, visE) ∧
        props2 = setProp propsE name t) := by
  intro fuel name props vis o props2 vis2 h
  cases fuel with
  | zero => simp [propvalueA] at h
  | succ n =>
    rw [propvalueA] at h
    by_cases hv : name ∈ vis
    · rw [if_pos hv] at h
      cases h
    · rw [if_neg hv] at h
      cases hl : lookupProp props name with
      | none =>
        rw [hl] at h
        dsimp only at h
        simp only [Except.ok.injEq, Prod.mk.injEq] at h
        exact Or.inl ⟨h.1.symm, h.2.1.symm, rfl⟩
      | some e0 =>
        rw [hl] at h
        dsimp only at h
        cases he : evaluateA n e0 props (some (name :: vis)) with
        | error er =>
          rw [he] at h
          cases h
        | ok trip =>
          obtain ⟨ev, propsE, visE⟩ := trip
          rw [he] at h
          simp only [Except.ok.injEq, Prod.mk.injEq] at h
          refine Or.inr ⟨ev, e0, propsE, visE, h.1.symm, rfl, ?_, h.2.1.symm⟩
          simpa using he

/-- The evaluator only rewrites values of existing keys (memoization),
never adding or removing keys: absence of a key is invariant. -/
theorem evalKeys : ∀ fuel : Nat,
    (∀ name props vis o props2 vis2,
      propvalueA fuel name props vis = .ok (o, props2, vis2) →
      ∀ k, lookupProp props2 k = none ↔ lookupProp props k = none) ∧
    (∀ e props vis res props2 vis2,
      evaluateA fuel e props vis = .ok (res, props2, vis2) →
      ∀ k, lookupProp props2 k = none ↔ lookupProp props k = none) ∧
    (∀ refs value props vis res props2 vis2,
      processRefs fuel refs value props vis = .ok (res, props2, vis2) →
      ∀ k, lookupProp props2 k = none ↔ lookupProp props k = none) := by
  intro fuel
  induction fuel with
  | zero =>
    refine ⟨?_, ?_, ?_⟩
    · intro name props vis o props2 vis2 h
      simp [propvalueA] at h
    · intro e props vis res props2 vis2 h
      simp [evaluateA] at h
    · intro refs value props vis res props2 vis2 h
      simp [processRefs] at h
  | succ n ih =>
    obtain ⟨ihP, ihE, ihR⟩ := ih
    refine ⟨?_, ?_, ?_⟩
    · intro name props vis o props2 vis2 h k
      rcases propvalueA_ok_cases (n + 1) name props vis o props2 vis2 h with
        ⟨-, rfl, -⟩ | ⟨t, e0, propsE, visE, -, hl, he, rfl⟩
      · exact Iff.rfl
      · simp only [Nat.add_sub_cancel] at he
        have hkeys := ihE e0 props (some (name :: vis)) t propsE visE he
        have hne : lookupProp propsE name ≠ none := by
          intro h0
          rw [(hkeys name).mp h0] at hl
          cases hl
        exact (lookup_setProp_none_iff propsE name t hne k).trans (hkeys k)
    · intro e props vis res props2 vis2 h k
      rw [evaluateA] at h
      cases hrefs : eraseDups (findRefs e) with
      | nil =>
        rw [hrefs] at h
        simp only [Except.ok.injEq, Prod.mk.injEq] at h
        rw [h.2.1]
      | cons r rest =>
        rw [hrefs] at h
        exact ihR (r :: rest) e props vis res props2 vis2 h k
    · intro refs value props vis res props2 vis2 h k
      cases refs with
      | nil =>
        rw [processRefs] at h
        simp only [Except.ok.injEq, Prod.mk.injEq] at h
        rw [h.2.1]
      | cons r rest =>
        rw [processRefs] at h
        cases hpv : propvalueA n r props (vis.getD []) with
        | error er =>
          rw [hpv] at h
          cases h
        | ok trip =>
          obtain ⟨ro, propsA, visA⟩ := trip
          rw [hpv] at h
          have h1 := ihP r props (vis.getD []) ro propsA visA hpv
          have h2 := ihR rest _ propsA _ res props2 vis2 h
          exact (h2 k).trans (h1 k)

/-- The reference-processing loop preserves the literal of an undefined
clean name: no replaced reference literal can overlap it. -/
theorem processRefs_keeps : ∀ fuel : Nat, ∀ q : Str, '}' ∉ q → cleanName q = true →
    ∀ refs value props vis res props2 vis2,
      processRefs fuel refs value props vis = .ok (res, props2, vis2) →
      (∀ r ∈ refs, '}' ∉ r ∧ cleanName r = true) →
      lookupProp props q = none →
      (∃ u v, value = u ++ lit q ++ v) →
      ∃ u v, res = u ++ lit q ++ v := by
  intro fuel
  induction fuel with
  | zero =>
    intro q hq hcq refs value props vis res props2 vis2 h hrefs hqnone hocc
    simp [processRefs] at h
  | succ n ih =>
    intro q hq hcq refs value props vis res props2 vis2 h hrefs hqnone hocc
    cases refs with
    | nil =>
      rw [processRefs] at h
      simp only [Except.ok.injEq, Prod.mk.injEq] at h
      rw [← h.1]
      exact hocc
    | cons r rest =>
      rw [processRefs] at h
      cases hpv : propvalueA n r props (vis.getD []) with
      | error er =>
        rw [hpv] at h
        cases h
      | ok trip =>
        obtain ⟨ro, propsA, visA⟩ := trip
        rw [hpv] at h
        dsimp only at h
        have hkeysA := (evalKeys n).1 r props (vis.getD []) ro propsA visA hpv
        have hqnoneA : lookupProp propsA q = none := (hkeysA q).mpr hqnone
        have hrest : ∀ r2 ∈ rest, '}' ∉ r2 ∧ cleanName r2 = true :=
          fun r2 hr2 => hrefs r2 (List.mem_cons_of_mem r hr2)
        cases ro with
        | none =>
          exact ih q hq hcq rest value propsA _ res props2 vis2 h hrest hqnoneA hocc
        | some t =>
          have hrdef : lookupProp props r ≠ none := by
            rcases propvalueA_ok_cases n r props (vis.getD []) (some t) propsA visA hpv
              with ⟨hcon, -, -⟩ | ⟨t2, e0, pE, vE, -, hl, -, -⟩
            · cases hcon
            · rw [hl]
              intro h0
              cases h0
          have hrq : r ≠ q := fun hEq => hrdef (hEq ▸ hqnone)
          obtain ⟨hrb, hrc⟩ := hrefs r (List.mem_cons_self r rest)
          have hof := mkOverlapFree r q hrq hrb hq hrc hcq
          have hkeep := replaceAll_keeps (lit r) (lit q) t (by simp [lit])
            (by simp [lit]) hof value.length value (le_refl _) hocc
          exact ih q hq hcq rest (replaceAll value (lit r) t) propsA _ res props2 vis2
            h hrest hqnoneA hkeep

/-- Deduplicating a singleton. -/
theorem eraseDups_singleton (x : Str) : eraseDups [x] = [x] := by
  rw [eraseDups]
  rw [List.filter_nil, eraseDups_nil]

/-- C5 amended: undefined-property preservation. For every expression and
property map, when top-level evaluation (`_evaluate` with `visited=None`)
succeeds and no reference name of the expression contains the substring
`${`, each `${name}` reference whose name is not a key of the map remains
textually intact in the result; and a reference to a defined name is
replaced by its fully expanded value — for the single-reference expression
`${r}` with `r` defined, the result is exactly the value memoized for `r`.
(Without the `${`-free proviso the claim fails: replacing one reference
can rewrite text inside another reference's literal, see the
counterexample.) -/
theorem c5_undefined_refs_preserved :
    ∀ (fuel : Nat) (e : Str) (props : PropsL) (res : Str) (props2 : PropsL)
      (vis2 : Option (List Str)),
      evaluateA fuel e props none = .ok (res, props2, vis2) →
      (∀ r ∈ findRefs e, cleanName r = true) →
      (∀ name ∈ findRefs e, lookupProp props name = none →
        containsSub res (lit name) = true) ∧
      (∀ r, e = lit r → '}' ∉ r → lookupProp props r ≠ none →
        lookupProp props2 r = some res) := by
  intro fuel e props res props2 vis2 hok hclean
  cases fuel with
  | zero => simp [evaluateA] at hok
  | succ n =>
    rw [evaluateA] at hok
    cases hrefs : eraseDups (findRefs e) with
    | nil =>
      rw [hrefs] at hok
      simp only [Except.ok.injEq, Prod.mk.injEq] at hok
      obtain ⟨h1, -, -⟩ := hok
      constructor
      · intro name hname hnone
        rw [← h1]
        rw [containsSub_iff]
        exact findRefs_occurs e name hname
      · intro r hlit hrb hrdef
        exfalso
        rw [hlit, findRefs_lit r hrb, eraseDups_singleton] at hrefs
        cases hrefs
    | cons r0 rest0 =>
      rw [hrefs] at hok
      constructor
      · intro name hname hnone
        have hconds : ∀ r2 ∈ (r0 :: rest0), '}' ∉ r2 ∧ cleanName r2 = true := by
          intro r2 hr2
          have hr2b : r2 ∈ findRefs e := eraseDups_subset _ r2 (hrefs ▸ hr2)
          exact ⟨findRefs_no_rbrace e r2 hr2b, hclean r2 hr2b⟩
        have hocc : ∃ u v, e = u ++ lit name ++ v := findRefs_occurs e name hname
        have hkeep := processRefs_keeps n name (findRefs_no_rbrace e name hname)
          (hclean name hname) (r0 :: rest0) e props none res props2 vis2 hok
          hconds hnone hocc
        rw [containsSub_iff]
        exact hkeep
      · intro r hlit hrb hrdef
        subst hlit
        have hrr : r0 = r ∧ rest0 = [] := by
          rw [findRefs_lit r hrb, eraseDups_singleton] at hrefs
          simp only [List.cons.injEq] at hrefs
          exact ⟨hrefs.1.symm, hrefs.2.symm⟩
        obtain ⟨h1, h2⟩ := hrr
        rw [h1, h2] at hok
        cases n with
        | zero => simp [processRefs] at hok
        | succ m =>
          rw [processRefs] at hok
          cases hpv : propvalueA m r props ((none : Option (List Str)).getD []) with
          | error er =>
            rw [hpv] at hok
            cases hok
          | ok trip =>
            obtain ⟨ro, propsA, visA⟩ := trip
            rw [hpv] at hok
            dsimp only at hok
            cases ro with
            | none =>
              exfalso
              rcases propvalueA_ok_cases m r props _ none propsA visA hpv with
                ⟨-, -, hl⟩ | ⟨t2, e0, pE, vE, hcon, -, -, -⟩
              · exact hrdef hl
              · cases hcon
            | some t =>
              rcases propvalueA_ok_cases m r props _ (some t) propsA visA hpv with
                ⟨hcon, -, -⟩ | ⟨t2, e0, pE, vE, ht2, -, -, hmemo⟩
              · cases hcon
              · have ht : t2 = t := by
                  injection ht2 with h0
                  exact h0.symm
                subst ht
                cases m with
                | zero => simp [processRefs] at hok
                | succ m2 =>
                  rw [processRefs] at hok
                  simp only [Except.ok.injEq, Prod.mk.injEq] at hok
                  obtain ⟨hres, hprops2, -⟩ := hok
                  rw [replaceAll_self (lit r) t2 (by simp [lit])] at hres
                  rw [← hprops2, hmemo, lookup_setProp_self, hres]

/-- C5 counterexample: in the expression `${x${a}} ${a}` with property map
`{a: "v"}`, the name `x${a` is one of the scanned references and is not a
key of the map, yet after successful evaluation its literal `${x${a}` no
longer occurs in the result `${xv} v`: replacing the defined reference
`${a}` rewrote text inside the undefined reference's literal. The claim's
"leaves each such reference textually intact" is therefore false as
stated. -/
theorem c5_overlap_counterexample :
    (str "x$\x7ba") ∈ findRefs c5expr ∧
    lookupProp c5props (str "x$\x7ba") = none ∧
    evaluateA 10 c5expr c5props none = .ok (str "$\x7bxv\x7d v", c5props, none) ∧
    containsSub (str "$\x7bxv\x7d v") (lit (str "x$\x7ba")) = false := by
  refine ⟨?_, ?_, ?_, ?_⟩
  · simp [c5expr, str, findRefs, takeUntilRBrace]
  · simp [c5props, str, lookupProp]
  · simp [evaluateA, processRefs, propvalueA, c5expr, c5props, str, findRefs,
      takeUntilRBrace, eraseDups, replaceAll, lookupProp, setProp, lit, strHasPre]
  · simp [containsSub, strHasPre, str, lit]

/-- C5 witness: the amended theorem applied to the concrete expression
`${u} ${d}` over `{d: "1.4"}` — evaluation succeeds with `${u} 1.4` and
the undefined reference's literal `${u}` indeed remains. -/
theorem c5_undefined_refs_preserved_witness :
    containsSub (str "$\x7bu\x7d 1.4") (lit (str "u")) = true := by
  refine (c5_undefined_refs_preserved 10 c5wexpr c5wprops (str "$\x7bu\x7d 1.4")
    c5wprops none ?_ ?_).1 (str "u") ?_ ?_
  · simp [evaluateA, processRefs, propvalueA, c5wexpr, c5wprops, str, findRefs,
      takeUntilRBrace, eraseDups, replaceAll, lookupProp, setProp, lit, strHasPre]
  · intro r hr
    simp only [c5wexpr, str] at hr
    simp [findRefs, takeUntilRBrace] at hr
    rcases hr with rfl | rfl <;> simp [cleanName, containsSub, strHasPre, dollarBrace]
  · simp [c5wexpr, str, findRefs, takeUntilRBrace]
  · simp [c5wprops, str, lookupProp]

/-- C6 amended: the evaluator's cycle handling. Evaluating a property
name already in the per-invocation visited set raises the
interpolation-cycle failure naming it (so `x=${y}`, `y=${x}` raises); and
every successful property evaluation memoizes its value back into the
map. (The visited set is shared across sibling sub-references, so
evaluation of an acyclic reference diamond can also raise — see the
counterexample — which is why the claim's "acyclic never raises" clause
is dropped.) -/
theorem c6_cycle_detection :
    (∀ (fuel : Nat) (name : Str) (props : PropsL) (vis : List Str),
      name ∈ vis → propvalueA (fuel + 1) name props vis = .error (.cycle name)) ∧
    (∀ (fuel : Nat) (name : Str) (props : PropsL) (vis : List Str)
      (val : Str) (props2 : PropsL) (vis2 : List Str),
      propvalueA fuel name props vis = .ok (some val, props2, vis2) →
      lookupProp props2 name = some val) := by
  constructor
  · intro fuel name props vis hv
    rw [propvalueA, if_pos hv]
  · intro fuel name props vis val props2 vis2 h
    rcases propvalueA_ok_cases fuel name props vis (some val) props2 vis2 h with
      ⟨hcon, -, -⟩ | ⟨t, e0, pE, vE, ht, -, -, hmemo⟩
    · cases hcon
    · injection ht with h0
      rw [hmemo, lookup_setProp_self, h0]

/-- C6 witness: the theorem applied at concrete inputs — re-entering the
name `x` already on the visited set raises the cycle failure for the
spec's own `x=${y}, y=${x}` map, and a successful evaluation of `a` over
`{a: "v"}` memoizes `v`. -/
theorem c6_cycle_detection_witness :
    propvalueA 4 (str "x") xyCycleProps [str "x"] = .error (.cycle (str "x")) ∧
    lookupProp [(str "a", str "v")] (str "a") = some (str "v") :=
  ⟨c6_cycle_detection.1 3 (str "x") xyCycleProps [str "x"] (by simp),
    c6_cycle_detection.2 5 (str "a") [(str "a", str "v")] []
      (str "v") [(str "a", str "v")] [str "a"]
      (by simp [propvalueA, evaluateA, str, findRefs, lookupProp, setProp,
        eraseDups, takeUntilRBrace])⟩

/-- C6 counterexample: the diamond `x=${a}${b}`, `a=v`, `b=${a}` has an
acyclic reference graph (no name reaches itself), yet evaluating `x`
raises the interpolation-cycle failure, because the visited set is shared
across the sibling expansions of `a` and `b`. This falsifies the claim's
"evaluation of a property whose expansion chain is acyclic never raises
this failure". -/
theorem c6_acyclic_raises_counterexample :
    hasRefCycle diamondProps = false ∧
    propvalueA 10 (str "x") diamondProps [] = .error (.cycle (str "a")) := by
  constructor
  · simp [hasRefCycle, diamondProps, reachesIn, directRefs, lookupProp, findRefs,
      eraseDups, takeUntilRBrace, str]
  · simp [propvalueA, evaluateA, processRefs, diamondProps, str, findRefs,
      takeUntilRBrace, eraseDups, replaceAll, lookupProp, setProp, lit, strHasPre]
